import Mathlib

/-!
excel-fill: rule matching and row mutation.

A shallow embedding of `main.go` (functions `validate` and `process`, and the
validate-then-process sequence of `main`), followed by theorems about it.

The program consumes three external libraries, which are not part of the
repository and are taken as parameters here:

* the regular-expression package (`regexp.MustCompile`, `MatchString`): a
  structure `Regexp R` of a compile function and a match function;
* the workbook package (`GetRows`, `GetCellValue`, `SetCellValue`): a structure
  `Workbook B E` of three operations on a book state `B` with errors `E`;
* `strconv.Itoa` on the non-negative integers the program passes to it: the
  decimal numeral `Nat.repr`.

Effects are explicit: the package-level map `mFilterRegexp` is a `Cache` value
threaded through `validate`, the workbook is a state that `process` threads
through, and every call of `GetCellValue`, `SetCellValue` and `slog.Info` is
recorded, in order, in a trace.
-/

namespace ExcelFill

/-! ## Data model (main.go, lines 155-173) -/

/-- The struct `Filter`: a column reference and a regular-expression pattern. -/
structure Filter where
  column : String
  value : String
deriving DecidableEq, Repr

/-- The struct `Action`: a column reference and the literal value to write. -/
structure Action where
  column : String
  value : String
deriving DecidableEq, Repr

/-- The struct `Operation`: a name, its filters and its actions, in declared order. -/
structure Operation where
  name : String
  filters : List Filter
  actions : List Action
deriving DecidableEq, Repr

/-- The struct `Config`: the operations in declared order. -/
structure Config where
  operations : List Operation
deriving DecidableEq, Repr

/-! ## External collaborators, as parameters -/

/-- The regular-expression package as the program uses it. `compile` is
`regexp.Compile` (`none` when the pattern does not compile, the case in which
`regexp.MustCompile` panics); `matchString` is `(*Regexp).MatchString`. -/
structure Regexp (R : Type) where
  compile : String → Option R
  matchString : R → String → Bool

/-- The workbook package as the program uses it, on a book state `B` with
errors `E`. The first string argument of each operation is the sheet name.
`setCellValue` returns the book after the write. -/
structure Workbook (B E : Type) where
  getRows : B → String → Except E (List (List String))
  getCellValue : B → String → String → Except E String
  setCellValue : B → String → String → String → Except E B

/-- How a call ends: it returns normally, returns an error, or panics
(`regexp.MustCompile` on a pattern that does not compile, or `MatchString` on
the nil pointer a missing map entry yields). -/
inductive Outcome (E : Type) (α : Type) where
  | ok (a : α)
  | error (e : E)
  | panicked
deriving DecidableEq, Repr

/-- `strconv.Itoa` on a non-negative integer: its decimal numeral. -/
def itoa (n : Nat) : String := Nat.repr n

/-! ## Cell references

`process` builds a cell address as a column string followed by the decimal
row number. Which cell an address denotes is decided by the workbook package's
reference syntax (A1 style): a run starting with a letter and ending with the
last letter or `$` of the address is the column part, the text after it is the
row, read as `strconv.Atoi` reads it and required to be positive; the column
part, its `$` signs removed, must be a non-empty word of letters, compared
without regard to case. The size limits of a sheet are not part of the syntax;
they are left to the workbook operations, which may fail. -/

/-- The characters that belong to the column part of a reference. -/
def isRefLetter (c : Char) : Bool := c.isAlpha || c == '$'

/-- A run of decimal digits read as a number, continuing from `acc`. -/
def parseDigits : List Char → Nat → Option Nat
  | [], acc => some acc
  | c :: cs, acc => if c.isDigit then parseDigits cs (acc * 10 + (c.toNat - 48)) else none

/-- The function `strconv.Atoi`, without its range check: an optional sign and
at least one decimal digit. -/
def atoi (s : List Char) : Option Int :=
  match s with
  | [] => none
  | c :: ds =>
    if c = '+' then
      if ds.isEmpty then none else (parseDigits ds 0).map Int.ofNat
    else if c = '-' then
      if ds.isEmpty then none else (parseDigits ds 0).map (fun n => - Int.ofNat n)
    else (parseDigits (c :: ds) 0).map Int.ofNat

/-- The text of an address after its last column character. -/
def rowText (cs : List Char) : List Char :=
  (cs.reverse.takeWhile (fun c => !isRefLetter c)).reverse

/-- The text of an address up to its last column character. -/
def colText (cs : List Char) : List Char :=
  (cs.reverse.dropWhile (fun c => !isRefLetter c)).reverse

/-- An address split into its column part (without `$`) and its row number. -/
def splitCellName (cell : String) : Option (List Char × Nat) :=
  match cell.data with
  | [] => none
  | c0 :: cs =>
    if isRefLetter c0 && !(rowText (c0 :: cs)).isEmpty then
      match atoi (rowText (c0 :: cs)) with
      | some row =>
        if 0 < row then some ((colText (c0 :: cs)).filter (fun c => c != '$'), row.toNat)
        else none
      | none => none
    else none

/-- A column part as a column: a non-empty word of letters, in upper case. -/
def columnName (name : List Char) : Option (List Char) :=
  if !name.isEmpty && name.all Char.isAlpha then some (name.map Char.toUpper) else none

/-- The cell an address denotes: its column, in upper case, and its row;
`none` for a text that is no cell reference. -/
def cellOf (addr : String) : Option (List Char × Nat) :=
  match splitCellName addr with
  | none => none
  | some (col, row) =>
    match columnName col with
    | none => none
    | some name => some (name, row)

/-- The row an address denotes, if it denotes a cell. -/
def rowOf (addr : String) : Option Nat := (cellOf addr).map Prod.snd

/-- What the program relies on from the workbook package, for the sheet
`sheetName`: after a successful write to an address that denotes a cell, a read
of any address denoting that cell returns the written value, and a read of an
address that does not denote the same cell returns what it returned before. -/
structure Lawful {B E : Type} (W : Workbook B E) (sheetName : String) : Prop where
  get_set_same : ∀ (b b1 : B) (a a1 v : String) (c : List Char × Nat),
    W.setCellValue b sheetName a v = .ok b1 → cellOf a = some c → cellOf a1 = some c →
    W.getCellValue b1 sheetName a1 = .ok v
  get_set_other : ∀ (b b1 : B) (a a1 v : String),
    W.setCellValue b sheetName a v = .ok b1 → cellOf a1 ≠ cellOf a →
    W.getCellValue b1 sheetName a1 = W.getCellValue b sheetName a1

/-! ## Sample collaborators

Instances of the two parameters on which the definitions can be evaluated. -/

/-- A workbook held in memory: the rows `GetRows` returns and the text of each
cell. -/
structure MemBook where
  rows : List (List String)
  cell : List Char × Nat → String

/-- The operations of `MemBook`: reads and writes go through `cellOf` and fail
on a text that is no cell reference. -/
def memWorkbook : Workbook MemBook String where
  getRows := fun b _ => .ok b.rows
  getCellValue := fun b _ a =>
    match cellOf a with
    | none => .error ("invalid cell name " ++ a)
    | some c => .ok (b.cell c)
  setCellValue := fun b _ a v =>
    match cellOf a with
    | none => .error ("invalid cell name " ++ a)
    | some c => .ok { b with cell := fun k => if k = c then v else b.cell k }

/-- Matching for `literalRegexp`: a pattern starting with `^` matches the
texts that start with the rest of the pattern, any other pattern matches the
texts that contain it. -/
def literalMatch (p s : List Char) : Bool :=
  match p with
  | '^' :: q => q.isPrefixOf s
  | q => s.tails.any (fun t => q.isPrefixOf t)

/-- A regular-expression engine for the patterns made of letters and digits
after an optional leading `^`, on which it agrees with the `regexp` package;
it compiles no other pattern. -/
def literalRegexp : Regexp (List Char) where
  compile := fun p =>
    match p.data with
    | '^' :: q => if q.all Char.isAlphanum then some p.data else none
    | q => if q.all Char.isAlphanum then some p.data else none
  matchString := fun p s => literalMatch p s.data

/-! ## The compiled-filter cache (`mFilterRegexp`) -/

/-- The map `mFilterRegexp`: from key to compiled pattern; `none` is the nil
pointer a Go map lookup yields for a missing key. -/
abbrev Cache (R : Type) := String → Option R

/-- The empty map the program starts with. -/
def Cache.empty {R : Type} : Cache R := fun _ => none

/-- The assignment `mFilterRegexp[key] = val`. -/
def Cache.set {R : Type} (m : Cache R) (key : String) (val : R) : Cache R :=
  fun k => if k = key then some val else m k

/-- The key `strconv.Itoa(opIdx) + "_" + strconv.Itoa(filterIdx)`. -/
def cacheKey (opIdx filterIdx : Nat) : String :=
  itoa opIdx ++ "_" ++ itoa filterIdx

/-! ## `validate` (main.go, lines 74-100) -/

/-- The error of line 83. -/
def filterColumnEmpty (opIdx filterIdx : Nat) : String :=
  "operations[" ++ itoa opIdx ++ "].when[" ++ itoa filterIdx ++ "].column is empty"

/-- The error of line 95. -/
def actionColumnEmpty (opIdx actionIdx : Nat) : String :=
  "operations[" ++ itoa opIdx ++ "].do[" ++ itoa actionIdx ++ "].column is empty"

section Validate

variable {R : Type} (RE : Regexp R)

/-- The loop over `op.Filters` in `validate` (lines 80-90), from filter index
`filterIdx` on: the column check, then `MustCompile` and the cache write. -/
def validateFilters (opIdx : Nat) : Nat → List Filter → Cache R → Outcome String Unit × Cache R
  | _, [], m => (.ok (), m)
  | filterIdx, filter :: rest, m =>
    if filter.column = "" then
      (.error (filterColumnEmpty opIdx filterIdx), m)
    else
      match RE.compile filter.value with
      | none => (.panicked, m)
      | some cacheVal =>
        validateFilters opIdx (filterIdx + 1) rest (m.set (cacheKey opIdx filterIdx) cacheVal)

/-- The loop over `op.Actions` in `validate` (lines 92-97), from action index
`actionIdx` on. -/
def validateActions (opIdx : Nat) : Nat → List Action → Outcome String Unit
  | _, [] => .ok ()
  | actionIdx, action :: rest =>
    if action.column = "" then .error (actionColumnEmpty opIdx actionIdx)
    else validateActions opIdx (actionIdx + 1) rest

/-- The loop over `config.Operations` in `validate` (lines 79-98), from
operation index `opIdx` on. -/
def validateOps : Nat → List Operation → Cache R → Outcome String Unit × Cache R
  | _, [], m => (.ok (), m)
  | opIdx, op :: rest, m =>
    match validateFilters RE opIdx 0 op.filters m with
    | (.ok (), m1) =>
      match validateActions opIdx 0 op.actions with
      | .ok () => validateOps (opIdx + 1) rest m1
      | .error e => (.error e, m1)
      | .panicked => (.panicked, m1)
    | (.error e, m1) => (.error e, m1)
    | (.panicked, m1) => (.panicked, m1)

/-- The function `validate`; `none` is the nil pointer. It returns the outcome
and the map `mFilterRegexp` as the call leaves it. -/
def validate (config : Option Config) (m : Cache R) : Outcome String Unit × Cache R :=
  match config with
  | none => (.error "input is nil", m)
  | some c => validateOps RE 0 c.operations m

end Validate

/-! ## `process` (main.go, lines 102-146) -/

/-- One call to a collaborator that `process` makes. -/
inductive Event where
  /-- A call `GetCellValue(sheetName, addr)`. -/
  | getCell (addr : String)
  /-- A call `SetCellValue(sheetName, addr, value)`. -/
  | setCell (addr : String) (value : String)
  /-- A call `slog.Info("match", "r", row, "op", op, "action", action)`. -/
  | info (row : Nat) (op : String) (action : String)
deriving DecidableEq, Repr

/-- The workbook as it stands, and the calls made so far, oldest first. -/
structure State (B : Type) where
  book : B
  trace : List Event

/-- The state after one more call. -/
def State.log {B : Type} (st : State B) (ev : Event) : State B :=
  { st with trace := st.trace ++ [ev] }

section Process

variable {B E R : Type} (W : Workbook B E) (RE : Regexp R) (m : Cache R) (sheetName : String)

/-- The loop over `op.Filters` in `process` (lines 112-129), from filter index
`filterIdx` on. It returns the final value of `matched`. -/
def matchFilters (row opIdx : Nat) : Nat → List Filter → State B → Outcome E Bool × State B
  | _, [], st => (.ok true, st)
  | filterIdx, filter :: rest, st =>
    let cellAddr := filter.column ++ itoa row
    let st1 := st.log (.getCell cellAddr)
    match W.getCellValue st.book sheetName cellAddr with
    | .error e => (.error e, st1)
    | .ok cellValue =>
      match m (cacheKey opIdx filterIdx) with
      | none => (.panicked, st1)
      | some filterRegexp =>
        if !RE.matchString filterRegexp cellValue then (.ok false, st1)
        else matchFilters row opIdx (filterIdx + 1) rest st1

/-- The loop over `op.Actions` in `process` (lines 133-140). -/
def applyActions (row : Nat) (opName : String) : List Action → State B → Outcome E Unit × State B
  | [], st => (.ok (), st)
  | action :: rest, st =>
    let actionCellAddr := action.column ++ itoa row
    let st1 := st.log (.setCell actionCellAddr action.value)
    match W.setCellValue st.book sheetName actionCellAddr action.value with
    | .error e => (.error e, st1)
    | .ok book1 =>
      applyActions row opName rest
        ((State.mk book1 st1.trace).log
          (.info row opName (actionCellAddr ++ " -> " ++ action.value)))

/-- The body of the loop over `config.Operations` in `process` (lines 110-141):
the operation `op` of index `opIdx` at row `row`. -/
def processOp (row opIdx : Nat) (op : Operation) (st : State B) : Outcome E Unit × State B :=
  match matchFilters W RE m sheetName row opIdx 0 op.filters st with
  | (.ok true, st1) => applyActions W sheetName row op.name op.actions st1
  | (.ok false, st1) => (.ok (), st1)
  | (.error e, st1) => (.error e, st1)
  | (.panicked, st1) => (.panicked, st1)

/-- The loop over `config.Operations` in `process` (lines 109-142) at row
`row`, from operation index `opIdx` on. -/
def processOps (row : Nat) : Nat → List Operation → State B → Outcome E Unit × State B
  | _, [], st => (.ok (), st)
  | opIdx, op :: rest, st =>
    match processOp W RE m sheetName row opIdx op st with
    | (.ok (), st1) => processOps row (opIdx + 1) rest st1
    | r => r

/-- The loop over rows in `process` (lines 108-143), for the row numbers of the
list in order. -/
def processRows (ops : List Operation) : List Nat → State B → Outcome E Unit × State B
  | [], st => (.ok (), st)
  | row :: rest, st =>
    match processOps W RE m sheetName row 0 ops st with
    | (.ok (), st1) => processRows ops rest st1
    | r => r

/-- The row numbers of `for row := 2; row <= len(rows); row++`. -/
def dataRows (n : Nat) : List Nat := List.range' 2 (n - 1)

/-- The function `process`, on a non-nil config (the only call passes the
address of a local). -/
def process (config : Config) (st : State B) : Outcome E Unit × State B :=
  match W.getRows st.book sheetName with
  | .error e => (.error e, st)
  | .ok rows => processRows W RE m sheetName config.operations (dataRows rows.length) st

end Process

/-! ## Auxiliary notions for the statements -/

/-- A run of decimal digits that reads as `n`, whatever was read before it. -/
def IsNumeral (D : List Char) (n : Nat) : Prop :=
  D ≠ [] ∧ (∀ c ∈ D, c.isDigit = true) ∧
    ∀ acc, parseDigits D acc = some (acc * 10 ^ D.length + n)

/-! ## The checking order of `validate`, from the specification

"Order of checking: operations in declared order; within an operation, all
filters before all actions", each item at its position. -/

/-- An item that validation checks: a filter or an action, with the index of
its operation and its own index among the filters or the actions. -/
inductive Item where
  | filter (opIdx filterIdx : Nat) (f : Filter)
  | action (opIdx actionIdx : Nat) (a : Action)
deriving DecidableEq, Repr

/-- The filters of an operation as items, the first one having index `j`. -/
def filterItems (opIdx : Nat) : Nat → List Filter → List Item
  | _, [] => []
  | j, f :: fs => .filter opIdx j f :: filterItems opIdx (j + 1) fs

/-- The actions of an operation as items, the first one having index `j`. -/
def actionItems (opIdx : Nat) : Nat → List Action → List Item
  | _, [] => []
  | j, a :: as => .action opIdx j a :: actionItems opIdx (j + 1) as

/-- The items of the operations, the first operation having index `i`: for
each operation its filters, then its actions. -/
def itemsFrom : Nat → List Operation → List Item
  | _, [] => []
  | i, op :: rest =>
    filterItems i 0 op.filters ++ actionItems i 0 op.actions ++ itemsFrom (i + 1) rest

/-- The items of a configuration in checking order. -/
def items (cfg : Config) : List Item := itemsFrom 0 cfg.operations

/-- The column of an item. -/
def Item.column : Item → String
  | .filter _ _ f => f.column
  | .action _ _ a => a.column

/-- The empty-column error that names the position of an item. -/
def Item.columnEmpty : Item → String
  | .filter i j _ => filterColumnEmpty i j
  | .action i j _ => actionColumnEmpty i j

/-- An item is a filter whose column is not empty and whose value does not
compile. -/
def Item.badPattern {R : Type} (RE : Regexp R) : Item → Bool
  | .filter _ _ f => f.column ≠ "" && (RE.compile f.value).isNone
  | .action _ _ _ => false

/-- The check of one item: `none` when it passes, the way validation ends when
it does not. For a filter the column is looked at before the pattern. -/
def Item.check {R : Type} (RE : Regexp R) (x : Item) : Option (Outcome String Unit) :=
  if x.column = "" then some (.error x.columnEmpty)
  else if x.badPattern RE then some .panicked
  else none

/-- The cache after an item that passes: a filter stores its compiled pattern
under the key of its position. -/
def Item.store {R : Type} (RE : Regexp R) (x : Item) (m : Cache R) : Cache R :=
  match x with
  | .filter i j f =>
    match RE.compile f.value with
    | some re => m.set (cacheKey i j) re
    | none => m
  | .action _ _ _ => m

/-- The cache after a list of items that pass. -/
def storeAll {R : Type} (RE : Regexp R) : List Item → Cache R → Cache R
  | [], m => m
  | x :: xs, m => storeAll RE xs (x.store RE m)

/-- Checking items one after the other, stopping at the first that does not
pass. -/
def checkAll {R : Type} (RE : Regexp R) : List Item → Cache R → Outcome String Unit × Cache R
  | [], m => (.ok (), m)
  | x :: xs, m =>
    match x.check RE with
    | some o => (o, m)
    | none => checkAll RE xs (x.store RE m)

/-- The cache holds, for every filter of the operation `op` of index `i`, the
compiled pattern of the filter under the key of its position. -/
def CacheFor {R : Type} (RE : Regexp R) (m : Cache R) (i : Nat) (op : Operation) : Prop :=
  ∀ j f, op.filters[j]? = some f → ∃ re, RE.compile f.value = some re ∧ m (cacheKey i j) = some re

/-! ## The effect of a trace on the workbook -/

/-- The call returned normally. -/
def Outcome.isOk {E α : Type} : Outcome E α → Bool
  | .ok _ => true
  | _ => false

/-- The book after one call: a write that succeeds yields the new book, every
other call leaves the book as it is. -/
def writeStep {B E : Type} (W : Workbook B E) (sheetName : String) (b : B) : Event → B
  | .setCell a v =>
    match W.setCellValue b sheetName a v with
    | .ok b1 => b1
    | .error _ => b
  | _ => b

/-- The book after the calls of a trace, made in order from the book `b`. -/
def replay {B E : Type} (W : Workbook B E) (sheetName : String) (b : B) (evs : List Event) : B :=
  evs.foldl (writeStep W sheetName) b

/-- Every write of the trace succeeds when the calls are made in order from
the book `b`. -/
def writesOk {B E : Type} (W : Workbook B E) (sheetName : String) : B → List Event → Prop
  | _, [] => True
  | b, ev :: evs =>
    (match ev with
      | .setCell a v => ∃ b1, W.setCellValue b sheetName a v = .ok b1
      | _ => True) ∧
    writesOk W sheetName (writeStep W sheetName b ev) evs

/-- The calls that processing the rows `rows` under the operations `ops` can
make: a read at a filter column, a write of an action value at an action
column, and the log line of such a write, each at one of the rows. -/
def EventIn (rows : List Nat) (ops : List Operation) : Event → Prop
  | .getCell a => ∃ r ∈ rows, ∃ op ∈ ops, ∃ f ∈ op.filters, a = f.column ++ itoa r
  | .setCell a v =>
    ∃ r ∈ rows, ∃ op ∈ ops, ∃ x ∈ op.actions, a = x.column ++ itoa r ∧ v = x.value
  | .info r name s =>
    r ∈ rows ∧ ∃ op ∈ ops, ∃ x ∈ op.actions,
      name = op.name ∧ s = x.column ++ itoa r ++ " -> " ++ x.value

/-- What a run from `st` to `st1` with outcome `o` did: it appended calls to
the trace, each of them allowed by `P`, the book is the one these calls yield,
and when the run returned normally every write succeeded. -/
def Ran {B E α : Type} (W : Workbook B E) (sheetName : String) (P : Event → Prop)
    (st : State B) (o : Outcome E α) (st1 : State B) : Prop :=
  ∃ evs, st1.trace = st.trace ++ evs ∧ (∀ ev ∈ evs, P ev) ∧
    st1.book = replay W sheetName st.book evs ∧
    (o.isOk = true → writesOk W sheetName st.book evs)

/-! ## The end-to-end example -/

/-- The configuration of the end-to-end example: one operation with one filter
on column A and one action on column B. -/
def singleRule (name p v : String) : Config :=
  ⟨[⟨name, [⟨"A", p⟩], [⟨"B", v⟩]⟩]⟩

/-- The workbook of the end-to-end example: a header row and two data rows,
with "xyz" in A2 and "abc" in A3. -/
def exampleBook : MemBook where
  rows := [["kind", "flag"], ["xyz", "old"], ["abc", "old"]]
  cell := fun k =>
    if k = (['A'], 1) then "kind" else if k = (['B'], 1) then "flag"
    else if k = (['A'], 2) then "xyz" else if k = (['B'], 2) then "old"
    else if k = (['A'], 3) then "abc" else if k = (['B'], 3) then "old"
    else ""

/-- The run of the end-to-end example: `validate` from the empty cache, then
`process` on `exampleBook`. -/
def exampleRun : Outcome String Unit × State MemBook :=
  process memWorkbook literalRegexp
    (validate literalRegexp (some (singleRule "rule" "^x" "yes")) Cache.empty).2
    "Sheet1" (singleRule "rule" "^x" "yes") ⟨exampleBook, []⟩

/-! ## Matching, in the words of the specification -/

/-- The compiled pattern of the filter matches the text of the cell at the
filter column and the row, in the book `b`. -/
def filterMatches {B E R : Type} (W : Workbook B E) (RE : Regexp R) (sheetName : String)
    (b : B) (row : Nat) (f : Filter) : Bool :=
  match RE.compile f.value, W.getCellValue b sheetName (f.column ++ itoa row) with
  | some re, .ok t => RE.matchString re t
  | _, _ => false

/-- Every filter of the list matches at the row, in the book `b`. -/
def filtersMatch {B E R : Type} (W : Workbook B E) (RE : Regexp R) (sheetName : String)
    (b : B) (row : Nat) (fs : List Filter) : Bool :=
  fs.all (filterMatches W RE sheetName b row)

/-- The writes of a trace: address and value, in order. -/
def writesOf : List Event → List (String × String)
  | [] => []
  | .setCell a v :: evs => (a, v) :: writesOf evs
  | _ :: evs => writesOf evs

/-- The reads of a trace: the addresses, in order. -/
def readsOf : List Event → List String
  | [] => []
  | .getCell a :: evs => a :: readsOf evs
  | _ :: evs => readsOf evs

/-- The reads that evaluate all the filters of a list at a row. -/
def filterReads (row : Nat) (fs : List Filter) : List Event :=
  fs.map (fun f => .getCell (f.column ++ itoa row))

/-- The calls of the loop over the actions of a matched operation when every
write succeeds: for each action its write and then its log line. -/
def actionEvents (row : Nat) (opName : String) : List Action → List Event
  | [] => []
  | x :: as =>
    .setCell (x.column ++ itoa row) x.value ::
      .info row opName (x.column ++ itoa row ++ " -> " ++ x.value) :: actionEvents row opName as

/-! ## Configurations with several writers of one cell -/

deriving instance DecidableEq for Except

/-- The configuration of the second end-to-end example: two operations with
the same filter, both writing column C. -/
def twoWriters : Config :=
  ⟨[⟨"one", [⟨"A", "^x"⟩], [⟨"C", "first"⟩]⟩, ⟨"two", [⟨"A", "^x"⟩], [⟨"C", "second"⟩]⟩]⟩

/-- The run of `twoWriters`: `validate` from the empty cache, then `process` on
`exampleBook`. -/
def twoWritersRun : Outcome String Unit × State MemBook :=
  process memWorkbook literalRegexp (validate literalRegexp (some twoWriters) Cache.empty).2
    "Sheet1" twoWriters ⟨exampleBook, []⟩

/-- The configuration `twoWriters` with a third operation that writes the
same column. -/
def threeWriters : Config :=
  ⟨[⟨"one", [⟨"A", "^x"⟩], [⟨"C", "first"⟩]⟩, ⟨"two", [⟨"A", "^x"⟩], [⟨"C", "second"⟩]⟩,
    ⟨"three", [⟨"A", "^x"⟩], [⟨"C", "third"⟩]⟩]⟩

/-- The run of `threeWriters`: `validate` from the empty cache, then `process`
on `exampleBook`. -/
def threeWritersRun : Outcome String Unit × State MemBook :=
  process memWorkbook literalRegexp (validate literalRegexp (some threeWriters) Cache.empty).2
    "Sheet1" threeWriters ⟨exampleBook, []⟩

/-- A configuration in which the order of evaluation shows: the first
operation writes column B at every row, the second one filters on column B. -/
def chained : Config :=
  ⟨[⟨"mark", [], [⟨"B", "x1"⟩]⟩, ⟨"follow", [⟨"B", "^x"⟩], [⟨"C", "hit"⟩]⟩]⟩

/-- The run of `chained`: `validate` from the empty cache, then `process` on
`exampleBook`. -/
def chainedRun : Outcome String Unit × State MemBook :=
  process memWorkbook literalRegexp (validate literalRegexp (some chained) Cache.empty).2
    "Sheet1" chained ⟨exampleBook, []⟩

/-! ## Configurations for validation -/

/-- A configuration whose first filter has a pattern that does not compile
(an unbalanced bracket) and whose second filter has an empty column. -/
def badPatternFirst : Config :=
  ⟨[⟨"op", [⟨"A", "["⟩, ⟨"", "x"⟩], [⟨"B", "v"⟩]⟩]⟩

/-- A configuration whose only filter has a pattern that does not compile. -/
def badPatternOnly : Config :=
  ⟨[⟨"op", [⟨"A", "["⟩], [⟨"B", "v"⟩]⟩]⟩

/-- A configuration with several offending items: an action with an empty
column in the first operation, then in the second operation a filter whose
pattern does not compile and a filter with an empty column. -/
def manyOffences : Config :=
  ⟨[⟨"one", [⟨"A", "x"⟩], [⟨"", "v"⟩]⟩, ⟨"two", [⟨"A", "["⟩, ⟨"", "y"⟩], [⟨"B", "w"⟩]⟩]⟩

/-- Some filter or action of the configuration has an empty column. -/
def hasEmptyColumn (cfg : Config) : Bool :=
  cfg.operations.any (fun op =>
    op.filters.any (fun f => f.column = "") || op.actions.any (fun x => x.column = ""))

/-- Some filter of the configuration has a value that does not compile. -/
def hasBadPattern {R : Type} (RE : Regexp R) (cfg : Config) : Bool :=
  cfg.operations.any (fun op => op.filters.any (fun f => (RE.compile f.value).isNone))

/-- Lines 61-67 of `main`: `validate` on the address of the configuration,
then `process` unless `exitOnError` ended the program. An error is the one of
`validate` or the one of `process`. -/
def validateThenProcess {B E R : Type} (W : Workbook B E) (RE : Regexp R) (m0 : Cache R)
    (sheetName : String) (config : Config) (st : State B) :
    Outcome (String ⊕ E) Unit × State B :=
  match validate RE (some config) m0 with
  | (.ok (), m1) =>
    match process W RE m1 sheetName config st with
    | (.ok (), st1) => (.ok (), st1)
    | (.error e, st1) => (.error (.inr e), st1)
    | (.panicked, st1) => (.panicked, st1)
  | (.error e, _) => (.error (.inl e), st)
  | (.panicked, _) => (.panicked, st)

/-- The number of filters of the list that are evaluated at a row, in the book
`b`: the index of the first filter that does not match plus one, or the number
of filters when all match. A filter whose cell cannot be read does not
match. -/
def readCount {B E R : Type} (W : Workbook B E) (RE : Regexp R) (sheetName : String)
    (b : B) (row : Nat) (fs : List Filter) : Nat :=
  match fs.findIdx? (fun f => !filterMatches W RE sheetName b row f) with
  | some k => k + 1
  | none => fs.length

/-- A configuration whose operation has two filters, the first of which does
not match "xyz". -/
def twoFilters : Config :=
  ⟨[⟨"both", [⟨"A", "^q"⟩, ⟨"B", "^o"⟩], [⟨"C", "hit"⟩]⟩]⟩

/-- A configuration that `validate` accepts and whose action column is not a
word of letters. -/
def digitColumn : Config :=
  ⟨[⟨"op", [], [⟨"A1", "v"⟩]⟩]⟩

/-- The run of `digitColumn`: `validate` from the empty cache, then `process`
on `exampleBook`. -/
def digitColumnRun : Outcome String Unit × State MemBook :=
  process memWorkbook literalRegexp (validate literalRegexp (some digitColumn) Cache.empty).2
    "Sheet1" digitColumn ⟨exampleBook, []⟩

/-! ## Calls that succeed, calls that fail, and log lines -/

/-- Every read and every write of the trace succeeds when the calls are made
in order from the book `b`. -/
def callsOk {B E : Type} (W : Workbook B E) (sheetName : String) : B → List Event → Prop
  | _, [] => True
  | b, ev :: evs =>
    (match ev with
      | .getCell a => ∃ t, W.getCellValue b sheetName a = .ok t
      | .setCell a v => ∃ b1, W.setCellValue b sheetName a v = .ok b1
      | .info _ _ _ => True) ∧
    callsOk W sheetName (writeStep W sheetName b ev) evs

/-- The call `ev`, made on the book `b`, fails with the error `e`. -/
def callFails {B E : Type} (W : Workbook B E) (sheetName : String) (b : B) (e : E) :
    Event → Prop
  | .getCell a => W.getCellValue b sheetName a = .error e
  | .setCell a v => W.setCellValue b sheetName a v = .error e
  | .info _ _ _ => False

/-- The log lines of a trace: row, operation name and text, in order. -/
def infosOf : List Event → List (Nat × String × String)
  | [] => []
  | .info r name s :: evs => (r, name, s) :: infosOf evs
  | _ :: evs => infosOf evs

/-- The writes of a trace that succeed when the calls are made in order from
the book `b`: address and value, in order. -/
def okWrites {B E : Type} (W : Workbook B E) (sheetName : String) :
    B → List Event → List (String × String)
  | _, [] => []
  | b, .setCell a v :: evs =>
    match W.setCellValue b sheetName a v with
    | .ok b1 => (a, v) :: okWrites W sheetName b1 evs
    | .error _ => okWrites W sheetName b evs
  | b, _ :: evs => okWrites W sheetName b evs

/-- The write of an action applied at a row: address and value. -/
def writeOfApplied (x : Nat × Operation × Action) : String × String :=
  (x.2.2.column ++ itoa x.1, x.2.2.value)

/-- The log line of an action applied at a row for an operation: row,
operation name, and the address and the value joined by an arrow. -/
def infoOfApplied (x : Nat × Operation × Action) : Nat × String × String :=
  (x.1, x.2.1.name, x.2.2.column ++ itoa x.1 ++ " -> " ++ x.2.2.value)

/-- How the calls `evs`, made from the book `b`, end for the outcome `o`: for
an error the last call is the one that fails with that error and all calls
before it succeed; otherwise all calls succeed. -/
def endsWith {B E α : Type} (W : Workbook B E) (sheetName : String) (b : B)
    (evs : List Event) : Outcome E α → Prop
  | .error e => ∃ pre ev, evs = pre ++ [ev] ∧ callsOk W sheetName b pre ∧
      callFails W sheetName (replay W sheetName b pre) e ev
  | _ => callsOk W sheetName b evs

/-- A full account of a run from `st` to `st1` with outcome `o`: the calls
appended to the trace, the book they yield, how they end, and the actions
applied, each allowed by `P`, whose writes are the successful writes and whose
log lines are the log lines of the run. -/
def Traced {B E α : Type} (W : Workbook B E) (sheetName : String)
    (P : Nat × Operation × Action → Prop) (st : State B) (o : Outcome E α) (st1 : State B) :
    Prop :=
  ∃ (evs : List Event) (applied : List (Nat × Operation × Action)),
    st1.trace = st.trace ++ evs ∧ st1.book = replay W sheetName st.book evs ∧
    endsWith W sheetName st.book evs o ∧
    (∀ x ∈ applied, P x) ∧
    okWrites W sheetName st.book evs = applied.map writeOfApplied ∧
    infosOf evs = applied.map infoOfApplied

/-- A configuration that `validate` accepts and whose second operation
writes to an address that is no cell reference, so that the write fails on
`memWorkbook`. -/
def failingWrite : Config :=
  ⟨[⟨"good", [], [⟨"B", "ok"⟩]⟩, ⟨"bad", [], [⟨"1", "no"⟩]⟩]⟩

/-- The run of `failingWrite`: `validate` from the empty cache, then `process`
on `exampleBook`. -/
def failingWriteRun : Outcome String Unit × State MemBook :=
  process memWorkbook literalRegexp (validate literalRegexp (some failingWrite) Cache.empty).2
    "Sheet1" failingWrite ⟨exampleBook, []⟩

/-! ## The addresses that `process` can write -/

/-- The number of rows that `GetRows` returns for the book, and 0 when it
fails. -/
def rowCount {B E : Type} (W : Workbook B E) (sheetName : String) (b : B) : Nat :=
  match W.getRows b sheetName with
  | .ok rows => rows.length
  | .error _ => 0

/-- The address is of the form: the column of an action of an operation of
the configuration, followed by the decimal text of a row `r` with
`2 ≤ r ≤ n`. -/
def WriteTarget (cfg : Config) (n : Nat) (a : String) : Prop :=
  ∃ op ∈ cfg.operations, ∃ x ∈ op.actions, ∃ r, 2 ≤ r ∧ r ≤ n ∧ a = x.column ++ itoa r

/-- The configuration of the end-to-end example with the action column in
lower case. -/
def lowerColumn : Config :=
  ⟨[⟨"rule", [⟨"A", "^x"⟩], [⟨"b", "yes"⟩]⟩]⟩

/-- The run of `lowerColumn`: `validate` from the empty cache, then `process`
on `exampleBook`. -/
def lowerColumnRun : Outcome String Unit × State MemBook :=
  process memWorkbook literalRegexp (validate literalRegexp (some lowerColumn) Cache.empty).2
    "Sheet1" lowerColumn ⟨exampleBook, []⟩

/-- A workbook like `memWorkbook` whose row enumeration fails: the sheet asked
for does not exist. -/
def missingSheet : Workbook MemBook String where
  getRows := fun _ s => .error ("sheet " ++ s ++ " does not exist")
  getCellValue := memWorkbook.getCellValue
  setCellValue := memWorkbook.setCellValue

/-- The state after the first operation of `chained` at row 2 of
`exampleBook`. -/
def chainedAfterMark : State MemBook :=
  (processOps memWorkbook literalRegexp (validate literalRegexp (some chained) Cache.empty).2
    "Sheet1" 2 0 [⟨"mark", [], [⟨"B", "x1"⟩]⟩] ⟨exampleBook, []⟩).2

/-! # Theorems -/

/-! ## Decimal numerals -/

theorem parseDigits_append (xs ys : List Char) (acc : Nat) :
    parseDigits (xs ++ ys) acc = (parseDigits xs acc).bind (parseDigits ys) := by
  induction xs generalizing acc with
  | nil => simp [parseDigits]
  | cons c cs ih =>
    simp only [List.cons_append, parseDigits]
    split
    · exact ih _
    · rfl

theorem digitChar_isDigit (d : Nat) (h : d < 10) : (Nat.digitChar d).isDigit = true := by
  interval_cases d <;> decide

theorem digitChar_toNat (d : Nat) (h : d < 10) : (Nat.digitChar d).toNat - 48 = d := by
  interval_cases d <;> decide


theorem toDigitsCore_spec (fuel : Nat) : ∀ (n : Nat) (ds : List Char), n < fuel →
    ∃ D, Nat.toDigitsCore 10 fuel n ds = D ++ ds ∧ IsNumeral D n := by
  induction fuel with
  | zero => intro n ds h; omega
  | succ fuel ih =>
    intro n ds h
    have hd : n % 10 < 10 := Nat.mod_lt _ (by decide)
    simp only [Nat.toDigitsCore]
    split
    · rename_i h0
      refine ⟨[Nat.digitChar (n % 10)], rfl, by simp, ?_, ?_⟩
      · intro c hc
        simp only [List.mem_singleton] at hc
        subst hc
        exact digitChar_isDigit _ hd
      · intro acc
        simp only [parseDigits, digitChar_isDigit _ hd, digitChar_toNat _ hd, if_true,
          List.length_singleton, pow_one]
        congr 1
        omega
    · rename_i h0
      have hlt : n / 10 < fuel := by omega
      obtain ⟨D, hD, hne, hdig, hval⟩ := ih (n / 10) (Nat.digitChar (n % 10) :: ds) hlt
      refine ⟨D ++ [Nat.digitChar (n % 10)], by simp [hD], by simp, ?_, ?_⟩
      · intro c hc
        rcases List.mem_append.1 hc with hc | hc
        · exact hdig c hc
        · simp only [List.mem_singleton] at hc
          subst hc
          exact digitChar_isDigit _ hd
      · intro acc
        rw [parseDigits_append, hval acc]
        simp only [Option.some_bind, parseDigits, digitChar_isDigit _ hd, digitChar_toNat _ hd,
          if_true, List.length_append, List.length_singleton, pow_succ]
        congr 1
        have := Nat.div_add_mod n 10
        nlinarith [Nat.div_add_mod n 10]

theorem itoa_numeral (n : Nat) : IsNumeral (itoa n).data n := by
  obtain ⟨D, hD, h⟩ := toDigitsCore_spec (n + 1) n [] (Nat.lt_succ_self n)
  have : (itoa n).data = D := by
    simp [itoa, Nat.repr, Nat.toDigits, hD, List.asString]
  rw [this]
  exact h

theorem itoa_injective {a b : Nat} (h : itoa a = itoa b) : a = b := by
  have ha := (itoa_numeral a).2.2 0
  have hb := (itoa_numeral b).2.2 0
  rw [h, hb] at ha
  simpa using ha.symm

/-! ## Cell references -/

theorem isDigit_not_refLetter (c : Char) (h : c.isDigit = true) : isRefLetter c = false := by
  simp only [Char.isDigit, Bool.and_eq_true, decide_eq_true_eq] at h
  simp only [isRefLetter, Char.isAlpha, Char.isUpper, Char.isLower, Bool.or_eq_false_iff,
    Bool.and_eq_false_iff, decide_eq_false_iff_not, beq_eq_false_iff_ne]
  obtain ⟨h1, h2⟩ := h
  have h1' : 48 ≤ c.val.toNat := h1
  have h2' : c.val.toNat ≤ 57 := h2
  refine ⟨⟨?_, ?_⟩, ?_⟩
  · left
    intro h3
    have : 65 ≤ c.val.toNat := h3
    omega
  · left
    intro h3
    have : 97 ≤ c.val.toNat := h3
    omega
  · rintro rfl
    revert h1'
    decide

theorem isDigit_ne_sign (c : Char) (h : c.isDigit = true) : c ≠ '+' ∧ c ≠ '-' ∧ c ≠ '_' := by
  refine ⟨?_, ?_, ?_⟩ <;> · rintro rfl; revert h; decide

theorem rowText_append (X D : List Char) (hD : ∀ c ∈ D, c.isDigit = true) :
    rowText (X ++ D) = rowText X ++ D := by
  unfold rowText
  rw [List.reverse_append, List.takeWhile_append_of_pos, List.reverse_append, List.reverse_reverse]
  intro a ha
  simp [isDigit_not_refLetter a (hD a (List.mem_reverse.1 ha))]

theorem colText_append (X D : List Char) (hD : ∀ c ∈ D, c.isDigit = true) :
    colText (X ++ D) = colText X := by
  unfold colText
  rw [List.reverse_append, List.dropWhile_append_of_pos]
  intro a ha
  simp [isDigit_not_refLetter a (hD a (List.mem_reverse.1 ha))]

/-- The row read from a text that ends with the numeral of `r` is at least `r`. -/
theorem atoi_append_numeral (T D : List Char) (r : Nat) (hD : IsNumeral D r) (row : Int)
    (h : atoi (T ++ D) = some row) (hpos : 0 < row) : r ≤ row.toNat := by
  obtain ⟨hne, hdig, hval⟩ := hD
  have key : ∀ (S : List Char) (n : Nat), parseDigits (S ++ D) 0 = some n → r ≤ n := by
    intro S n hn
    rw [parseDigits_append] at hn
    cases hS : parseDigits S 0 with
    | none => simp [hS] at hn
    | some a =>
      simp only [hS, Option.some_bind, hval a, Option.some.injEq] at hn
      omega
  cases T with
  | nil =>
    cases D with
    | nil => exact absurd rfl hne
    | cons d D1 =>
      have hd := isDigit_ne_sign d (hdig d (by simp))
      simp only [List.nil_append, atoi, hd.1, hd.2.1, if_false] at h
      cases hp : parseDigits (d :: D1) 0 with
      | none => simp [hp] at h
      | some n =>
        simp only [hp, Option.map_some', Option.some.injEq] at h
        subst h
        exact key [] n (by simpa using hp)
  | cons c T1 =>
    simp only [List.cons_append, atoi] at h
    split_ifs at h with h1 h2 h3 h4
    · cases hp : parseDigits (T1 ++ D) 0 with
      | none => simp [hp] at h
      | some n =>
        simp only [hp, Option.map_some', Option.some.injEq] at h
        subst h
        exact key T1 n hp
    · cases hp : parseDigits (T1 ++ D) 0 with
      | none => simp [hp] at h
      | some n =>
        simp only [hp, Option.map_some', Option.some.injEq] at h
        subst h
        have : (0:Int) ≤ Int.ofNat n := Int.ofNat_nonneg n
        omega
    · cases hp : parseDigits (c :: (T1 ++ D)) 0 with
      | none => simp [hp] at h
      | some n =>
        simp only [hp, Option.map_some', Option.some.injEq] at h
        subst h
        exact key (c :: T1) n (by simpa using hp)

/-- The address `col ++ itoa r` denotes, if anything, a cell of a row from `r` on. -/
theorem cellOf_append_itoa (col : String) (r : Nat) (c : List Char × Nat)
    (h : cellOf (col ++ itoa r) = some c) : r ≤ c.2 := by
  have hnum := itoa_numeral r
  unfold cellOf at h
  cases hs : splitCellName (col ++ itoa r) with
  | none => simp [hs] at h
  | some p =>
    obtain ⟨cn, row⟩ := p
    simp only [hs] at h
    have hrow : c.2 = row := by
      cases hc : columnName cn with
      | none => simp [hc] at h
      | some name => simp only [hc, Option.some.injEq] at h; rw [← h]
    rw [hrow]
    unfold splitCellName at hs
    have hdata : (col ++ itoa r).data = col.data ++ (itoa r).data := rfl
    rw [hdata] at hs
    cases hcol : col.data with
    | nil =>
      simp only [hcol, List.nil_append] at hs
      cases hD : (itoa r).data with
      | nil => exact absurd hD hnum.1
      | cons d D1 =>
        have hd : isRefLetter d = false :=
          isDigit_not_refLetter d (hnum.2.1 d (by simp [hD]))
        simp [hD, hd] at hs
    | cons c0 cs =>
      simp only [hcol, List.cons_append] at hs
      have hrt : rowText (c0 :: (cs ++ (itoa r).data)) = rowText (c0 :: cs) ++ (itoa r).data := by
        rw [← List.cons_append]; exact rowText_append _ _ hnum.2.1
      rw [hrt] at hs
      split_ifs at hs with h1
      cases ha : atoi (rowText (c0 :: cs) ++ (itoa r).data) with
      | none => simp [ha] at hs
      | some rw0 =>
        simp only [ha] at hs
        split_ifs at hs with h2
        simp only [Option.some.injEq, Prod.mk.injEq] at hs
        rw [← hs.2]
        exact atoi_append_numeral _ _ r hnum rw0 ha h2


theorem isAlpha_refLetter (c : Char) (h : c.isAlpha = true) : isRefLetter c = true := by
  simp [isRefLetter, h]

theorem isAlpha_ne_dollar (c : Char) (h : c.isAlpha = true) : (c != '$') = true := by
  simp only [bne_iff_ne, ne_eq]
  rintro rfl
  revert h
  decide

theorem takeWhile_none {α : Type} (p : α → Bool) (l : List α) (h : ∀ a ∈ l, p a = false) :
    l.takeWhile p = [] := by
  cases l with
  | nil => rfl
  | cons a l => simp [List.takeWhile, h a (by simp)]

theorem dropWhile_none {α : Type} (p : α → Bool) (l : List α) (h : ∀ a ∈ l, p a = false) :
    l.dropWhile p = l := by
  cases l with
  | nil => rfl
  | cons a l => simp [List.dropWhile, h a (by simp)]

theorem rowText_letters (L : List Char) (hal : ∀ c ∈ L, c.isAlpha = true) : rowText L = [] := by
  unfold rowText
  rw [takeWhile_none]
  · rfl
  · intro a ha
    simp [isAlpha_refLetter a (hal a (List.mem_reverse.1 ha))]

theorem colText_letters (L : List Char) (hal : ∀ c ∈ L, c.isAlpha = true) : colText L = L := by
  unfold colText
  rw [dropWhile_none]
  · exact List.reverse_reverse L
  · intro a ha
    simp [isAlpha_refLetter a (hal a (List.mem_reverse.1 ha))]

theorem atoi_numeral (D : List Char) (r : Nat) (hD : IsNumeral D r) :
    atoi D = some (Int.ofNat r) := by
  obtain ⟨hne, hdig, hval⟩ := hD
  cases D with
  | nil => exact absurd rfl hne
  | cons d D1 =>
    have hd := isDigit_ne_sign d (hdig d (by simp))
    simp [atoi, hd.1, hd.2.1, hval 0]

/-- A word of letters followed by the numeral of a positive row denotes that
column and that row. -/
theorem cellOf_letters_itoa (col : String) (r : Nat) (hne : col.data ≠ [])
    (hal : ∀ c ∈ col.data, c.isAlpha = true) (hr : 0 < r) :
    cellOf (col ++ itoa r) = some (col.data.map Char.toUpper, r) := by
  have hnum := itoa_numeral r
  have hdata : (col ++ itoa r).data = col.data ++ (itoa r).data := rfl
  cases hcol : col.data with
  | nil => exact absurd hcol hne
  | cons c0 cs =>
    have hal1 : ∀ c ∈ c0 :: cs, c.isAlpha = true := by rw [← hcol]; exact hal
    have hrt : rowText (c0 :: (cs ++ (itoa r).data)) = (itoa r).data := by
      rw [← List.cons_append, rowText_append _ _ hnum.2.1, rowText_letters _ hal1]
      rfl
    have hct : colText (c0 :: (cs ++ (itoa r).data)) = c0 :: cs := by
      rw [← List.cons_append, colText_append _ _ hnum.2.1, colText_letters _ hal1]
    have hc0 : isRefLetter c0 = true := isAlpha_refLetter c0 (hal1 c0 (by simp))
    have hD : (itoa r).data.isEmpty = false := by
      cases h : (itoa r).data with
      | nil => exact absurd h hnum.1
      | cons _ _ => rfl
    have hfil : List.filter (fun c => c != '$') (c0 :: cs) = c0 :: cs := by
      rw [List.filter_eq_self]
      intro a ha
      exact isAlpha_ne_dollar a (hal1 a ha)
    have hsplit : splitCellName (col ++ itoa r) = some (c0 :: cs, r) := by
      unfold splitCellName
      rw [hdata, hcol]
      simp only [List.cons_append, hrt, hct, hc0, hD, atoi_numeral _ _ hnum, hfil]
      have : (0:Int) < Int.ofNat r := Int.ofNat_lt.2 hr
      simp only [this, if_true, Int.toNat_ofNat]
      rfl
    have hcn : columnName (c0 :: cs) = some ((c0 :: cs).map Char.toUpper) := by
      unfold columnName
      have : (c0 :: cs).all Char.isAlpha = true := by
        rw [List.all_eq_true]; exact hal1
      simp [this]
    unfold cellOf
    rw [hsplit]
    simp only [hcn]

/-! ## Validation -/

section ValidateLemmas

variable {R : Type} (RE : Regexp R)

theorem checkAll_append (xs ys : List Item) (m : Cache R) :
    checkAll RE (xs ++ ys) m =
      match checkAll RE xs m with
      | (.ok (), m1) => checkAll RE ys m1
      | r => r := by
  induction xs generalizing m with
  | nil => simp [checkAll]
  | cons x xs ih =>
    simp only [List.cons_append, checkAll]
    cases hx : x.check RE with
    | none => exact ih _
    | some o =>
      simp only [Item.check] at hx
      split_ifs at hx <;> simp only [Option.some.injEq] at hx <;> subst hx <;> rfl

theorem validateFilters_eq (opIdx : Nat) (fs : List Filter) (j : Nat) (m : Cache R) :
    validateFilters RE opIdx j fs m = checkAll RE (filterItems opIdx j fs) m := by
  induction fs generalizing j m with
  | nil => rfl
  | cons f fs ih =>
    simp only [validateFilters, filterItems, checkAll, Item.check, Item.column, Item.columnEmpty,
      Item.badPattern, Item.store]
    by_cases hc : f.column = ""
    · simp [hc]
    · simp only [hc, if_false, ne_eq, not_false_eq_true, decide_True, Bool.true_and]
      cases RE.compile f.value with
      | none => simp
      | some re => simp [ih]

theorem validateActions_eq (opIdx : Nat) (as : List Action) (j : Nat) (m : Cache R) :
    (validateActions opIdx j as, m) = checkAll RE (actionItems opIdx j as) m := by
  induction as generalizing j m with
  | nil => rfl
  | cons a as ih =>
    simp only [validateActions, actionItems, checkAll, Item.check, Item.column, Item.columnEmpty,
      Item.badPattern, Item.store]
    by_cases hc : a.column = ""
    · simp [hc]
    · simp [hc, ih]

theorem validateOps_eq (ops : List Operation) (i : Nat) (m : Cache R) :
    validateOps RE i ops m = checkAll RE (itemsFrom i ops) m := by
  induction ops generalizing i m with
  | nil => rfl
  | cons op rest ih =>
    simp only [validateOps, itemsFrom, checkAll_append, ← validateFilters_eq]
    rcases hf : validateFilters RE i 0 op.filters m with ⟨o, m1⟩
    cases o with
    | ok u =>
      cases u
      simp only [← validateActions_eq]
      cases ha : validateActions i 0 op.actions with
      | ok u => cases u; simp only [ih]
      | error e => rfl
      | panicked => rfl
    | error e => rfl
    | panicked => rfl

/-- The function `validate` checks the items of the configuration in checking
order and stops at the first that does not pass. -/
theorem validate_eq_checkAll (cfg : Config) (m : Cache R) :
    validate RE (some cfg) m = checkAll RE (items cfg) m :=
  validateOps_eq RE cfg.operations 0 m

theorem check_ne_ok (x : Item) (o : Outcome String Unit) (h : x.check RE = some o) :
    o ≠ .ok () := by
  simp only [Item.check] at h
  split_ifs at h <;> simp only [Option.some.injEq] at h <;> subst h <;> simp

theorem checkAll_pass (xs : List Item) (m : Cache R) (h : ∀ y ∈ xs, y.check RE = none) :
    checkAll RE xs m = (.ok (), storeAll RE xs m) := by
  induction xs generalizing m with
  | nil => rfl
  | cons x xs ih =>
    simp only [checkAll, h x (by simp), storeAll]
    exact ih _ (fun y hy => h y (by simp [hy]))

theorem checkAll_fail (pre post : List Item) (x : Item) (o : Outcome String Unit) (m : Cache R)
    (hpre : ∀ y ∈ pre, y.check RE = none) (hx : x.check RE = some o) :
    checkAll RE (pre ++ x :: post) m = (o, storeAll RE pre m) := by
  rw [checkAll_append, checkAll_pass RE pre m hpre]
  simp only [checkAll, hx]

/-- Either every item passes, or the list splits at its first item that does
not pass. -/
theorem checkAll_cases (xs : List Item) :
    (∀ y ∈ xs, y.check RE = none) ∨
    ∃ pre x post o, xs = pre ++ x :: post ∧ (∀ y ∈ pre, y.check RE = none) ∧
      x.check RE = some o := by
  induction xs with
  | nil => left; simp
  | cons x xs ih =>
    cases hx : x.check RE with
    | some o => right; exact ⟨[], x, xs, o, rfl, by simp, hx⟩
    | none =>
      rcases ih with h | ⟨pre, y, post, o, h1, h2, h3⟩
      · left
        intro y hy
        rcases List.mem_cons.1 hy with rfl | hy
        · exact hx
        · exact h y hy
      · right
        refine ⟨x :: pre, y, post, o, by simp [h1], ?_, h3⟩
        intro z hz
        rcases List.mem_cons.1 hz with rfl | hz
        · exact hx
        · exact h2 z hz


theorem append_cons_inj {α : Type} (a : α) :
    ∀ (l1 l1' l2 l2' : List α), a ∉ l1 → a ∉ l1' → l1 ++ a :: l2 = l1' ++ a :: l2' →
      l1 = l1' ∧ l2 = l2'
  | [], [], _, _, _, _, h => by simpa using h
  | [], b :: l1', _, _, _, h2, h => by
    simp only [List.nil_append, List.cons_append, List.cons.injEq] at h
    exact absurd h.1 (by intro hab; exact h2 (by simp [hab]))
  | b :: l1, [], _, _, h1, _, h => by
    simp only [List.nil_append, List.cons_append, List.cons.injEq] at h
    exact absurd h.1.symm (by intro hab; exact h1 (by simp [hab]))
  | b :: l1, b' :: l1', l2, l2', h1, h2, h => by
    simp only [List.cons_append, List.cons.injEq] at h
    have := append_cons_inj a l1 l1' l2 l2' (fun hm => h1 (by simp [hm]))
      (fun hm => h2 (by simp [hm])) h.2
    exact ⟨by rw [h.1, this.1], this.2⟩

theorem underscore_not_mem_itoa (n : Nat) : '_' ∉ (itoa n).data := by
  intro h
  have := (itoa_numeral n).2.1 '_' h
  revert this
  decide

theorem cacheKey_data (i j : Nat) :
    (cacheKey i j).data = (itoa i).data ++ '_' :: (itoa j).data := by
  simp [cacheKey, String.data_append]

/-- Two positions with the same cache key are the same position. -/
theorem cacheKey_inj {i j i1 j1 : Nat} (h : cacheKey i j = cacheKey i1 j1) :
    i = i1 ∧ j = j1 := by
  have h1 : (cacheKey i j).data = (cacheKey i1 j1).data := by rw [h]
  rw [cacheKey_data, cacheKey_data] at h1
  have := append_cons_inj '_' _ _ _ _ (underscore_not_mem_itoa i) (underscore_not_mem_itoa i1) h1
  exact ⟨itoa_injective (String.ext this.1), itoa_injective (String.ext this.2)⟩

theorem check_filter_none (i j : Nat) (f : Filter) (h : (Item.filter i j f).check RE = none) :
    f.column ≠ "" ∧ ∃ re, RE.compile f.value = some re := by
  simp only [Item.check, Item.column, Item.badPattern] at h
  by_cases hc : f.column = ""
  · simp [hc] at h
  · refine ⟨hc, ?_⟩
    cases hp : RE.compile f.value with
    | none => simp [hc, hp] at h
    | some re => exact ⟨re, rfl⟩

theorem storeAll_append (xs ys : List Item) (m : Cache R) :
    storeAll RE (xs ++ ys) m = storeAll RE ys (storeAll RE xs m) := by
  induction xs generalizing m with
  | nil => rfl
  | cons x xs ih => exact ih _

theorem storeAll_filterItems (i : Nat) (fs : List Filter) (j : Nat) (m : Cache R)
    (hpass : ∀ y ∈ filterItems i j fs, y.check RE = none) :
    (∀ k f, fs[k]? = some f → ∃ re, RE.compile f.value = some re ∧
        storeAll RE (filterItems i j fs) m (cacheKey i (j + k)) = some re) ∧
    (∀ i0 j0, (i0 ≠ i ∨ j0 < j) →
        storeAll RE (filterItems i j fs) m (cacheKey i0 j0) = m (cacheKey i0 j0)) := by
  induction fs generalizing j m with
  | nil => simp [filterItems, storeAll]
  | cons f fs ih =>
    simp only [filterItems, List.mem_cons, forall_eq_or_imp] at hpass
    obtain ⟨hf, hrest⟩ := hpass
    obtain ⟨-, re, hre⟩ := check_filter_none RE i j f hf
    obtain ⟨ih1, ih2⟩ := ih (j + 1) (m.set (cacheKey i j) re) hrest
    have hst : ∀ key, storeAll RE (filterItems i j (f :: fs)) m key =
        storeAll RE (filterItems i (j + 1) fs) (m.set (cacheKey i j) re) key := by
      intro key
      simp only [filterItems, storeAll, Item.store, hre]
    constructor
    · intro k g hk
      cases k with
      | zero =>
        simp only [List.getElem?_cons_zero, Option.some.injEq] at hk
        subst hk
        refine ⟨re, hre, ?_⟩
        rw [hst, show j + 0 = j from rfl, ih2 i j (Or.inr (Nat.lt_succ_self j))]
        simp [Cache.set]
      | succ k =>
        simp only [List.getElem?_cons_succ] at hk
        obtain ⟨re1, h1, h2⟩ := ih1 k g hk
        refine ⟨re1, h1, ?_⟩
        rw [hst, ← h2]
        congr 2
        omega
    · intro i0 j0 h0
      rw [hst, ih2 i0 j0 (by omega)]
      have : cacheKey i0 j0 ≠ cacheKey i j := by
        intro he
        have := cacheKey_inj he
        omega
      simp [Cache.set, this]

theorem storeAll_actionItems (i : Nat) (as : List Action) (j : Nat) (m : Cache R) :
    storeAll RE (actionItems i j as) m = m := by
  induction as generalizing j with
  | nil => rfl
  | cons a as ih => simp only [actionItems, storeAll, Item.store, ih]

theorem storeAll_itemsFrom (ops : List Operation) (i : Nat) (m : Cache R)
    (hpass : ∀ y ∈ itemsFrom i ops, y.check RE = none) :
    (∀ k op, ops[k]? = some op → ∀ j f, op.filters[j]? = some f →
        ∃ re, RE.compile f.value = some re ∧
          storeAll RE (itemsFrom i ops) m (cacheKey (i + k) j) = some re) ∧
    (∀ i0 j0, i0 < i → storeAll RE (itemsFrom i ops) m (cacheKey i0 j0) = m (cacheKey i0 j0)) := by
  induction ops generalizing i m with
  | nil => simp [itemsFrom, storeAll]
  | cons op rest ih =>
    simp only [itemsFrom, List.mem_append] at hpass
    have hF := storeAll_filterItems RE i op.filters 0 m (fun y hy => hpass y (Or.inl (Or.inl hy)))
    obtain ⟨ih1, ih2⟩ := ih (i + 1) (storeAll RE (filterItems i 0 op.filters) m)
      (fun y hy => hpass y (Or.inr hy))
    have hst : storeAll RE (itemsFrom i (op :: rest)) m =
        storeAll RE (itemsFrom (i + 1) rest) (storeAll RE (filterItems i 0 op.filters) m) := by
      simp only [itemsFrom, storeAll_append, storeAll_actionItems]
    rw [hst]
    constructor
    · intro k o hk j f hj
      cases k with
      | zero =>
        simp only [List.getElem?_cons_zero, Option.some.injEq] at hk
        subst hk
        obtain ⟨re, h1, h2⟩ := hF.1 j f hj
        refine ⟨re, h1, ?_⟩
        rw [show i + 0 = i from rfl, ih2 i j (Nat.lt_succ_self i)]
        simpa using h2
      | succ k =>
        simp only [List.getElem?_cons_succ] at hk
        obtain ⟨re, h1, h2⟩ := ih1 k o hk j f hj
        refine ⟨re, h1, ?_⟩
        rw [← h2]
        congr 2
        omega
    · intro i0 j0 h0
      rw [ih2 i0 j0 (by omega), hF.2 i0 j0 (Or.inl (by omega))]

/-- After a successful `validate` the cache holds the compiled pattern of
every filter of every operation. -/
theorem validate_ok_cache (cfg : Config) (m0 m : Cache R)
    (h : validate RE (some cfg) m0 = (.ok (), m)) (i : Nat) (op : Operation)
    (hop : cfg.operations[i]? = some op) : CacheFor RE m i op := by
  rw [validate_eq_checkAll] at h
  rcases checkAll_cases RE (items cfg) with hp | ⟨pre, x, post, o, h1, h2, h3⟩
  · rw [checkAll_pass RE _ _ hp] at h
    simp only [Prod.mk.injEq, true_and] at h
    subst h
    intro j f hj
    have := (storeAll_itemsFrom RE cfg.operations 0 m0 hp).1 i op hop j f hj
    simpa [items] using this
  · rw [h1, checkAll_fail RE pre post x o m0 h2 h3] at h
    simp only [Prod.mk.injEq] at h
    exact absurd h.1 (check_ne_ok RE x o h3)

end ValidateLemmas

/-! ## Runs of `process` -/

section ProcessLemmas

variable {B E R : Type} (W : Workbook B E) (RE : Regexp R) (m : Cache R) (sheetName : String)

theorem replay_append (b : B) (e1 e2 : List Event) :
    replay W sheetName b (e1 ++ e2) = replay W sheetName (replay W sheetName b e1) e2 := by
  simp [replay, List.foldl_append]

theorem writesOk_append (b : B) (e1 e2 : List Event) :
    writesOk W sheetName b (e1 ++ e2) ↔
      writesOk W sheetName b e1 ∧ writesOk W sheetName (replay W sheetName b e1) e2 := by
  induction e1 generalizing b with
  | nil => simp [writesOk, replay]
  | cons ev e1 ih =>
    show (_ ∧ writesOk W sheetName _ (e1 ++ e2)) ↔ _
    rw [ih]
    simp only [writesOk, replay, List.foldl_cons, and_assoc]

theorem ran_refl {α : Type} (P : Event → Prop) (st : State B) (o : Outcome E α) :
    Ran W sheetName P st o st :=
  ⟨[], by simp, by simp, rfl, fun _ => trivial⟩

theorem ran_mono {α : Type} {P Q : Event → Prop} (hPQ : ∀ ev, P ev → Q ev) {st st1 : State B}
    {o : Outcome E α} (h : Ran W sheetName P st o st1) : Ran W sheetName Q st o st1 := by
  obtain ⟨evs, h1, h2, h3, h4⟩ := h
  exact ⟨evs, h1, fun ev hev => hPQ ev (h2 ev hev), h3, h4⟩

theorem ran_trans {α β : Type} {P : Event → Prop} {st st1 st2 : State B}
    {o1 : Outcome E α} {o2 : Outcome E β}
    (h1 : Ran W sheetName P st o1 st1) (ho1 : o1.isOk = true)
    (h2 : Ran W sheetName P st1 o2 st2) :
    Ran W sheetName P st o2 st2 := by
  obtain ⟨e1, a1, a2, a3, a4⟩ := h1
  obtain ⟨e2, b1, b2, b3, b4⟩ := h2
  refine ⟨e1 ++ e2, by rw [b1, a1, List.append_assoc], ?_, ?_, ?_⟩
  · intro ev hev
    rcases List.mem_append.1 hev with h | h
    · exact a2 ev h
    · exact b2 ev h
  · rw [replay_append, ← a3, b3]
  · intro ho
    rw [writesOk_append, ← a3]
    exact ⟨a4 ho1, b4 ho⟩

/-- A run that changes the outcome only. -/
theorem ran_outcome {α β : Type} {P : Event → Prop} {st st1 : State B}
    (o1 : Outcome E α) (o2 : Outcome E β) (ho : o2.isOk = true → o1.isOk = true)
    (h : Ran W sheetName P st o1 st1) : Ran W sheetName P st o2 st1 := by
  obtain ⟨evs, h1, h2, h3, h4⟩ := h
  exact ⟨evs, h1, h2, h3, fun h => h4 (ho h)⟩

theorem ran_read {α : Type} {P : Event → Prop} (st : State B) (a : String) (o : Outcome E α)
    (hP : P (.getCell a)) : Ran W sheetName P st o (st.log (.getCell a)) :=
  ⟨[.getCell a], rfl, by simpa using hP, rfl, fun _ => ⟨trivial, trivial⟩⟩

theorem matchFilters_ran (row opIdx : Nat) (P : Event → Prop) (fs : List Filter)
    (hP : ∀ f ∈ fs, P (.getCell (f.column ++ itoa row))) (j : Nat) (st : State B) :
    Ran W sheetName P st (matchFilters W RE m sheetName row opIdx j fs st).1
      (matchFilters W RE m sheetName row opIdx j fs st).2 := by
  induction fs generalizing j st with
  | nil => exact ran_refl W sheetName P st _
  | cons f fs ih =>
    have hread : ∀ (o : Outcome E Bool), Ran W sheetName P st o
        (st.log (.getCell (f.column ++ itoa row))) :=
      fun o => ran_read W sheetName st _ o (hP f (by simp))
    simp only [matchFilters]
    cases W.getCellValue st.book sheetName (f.column ++ itoa row) with
    | error e => exact hread _
    | ok t =>
      simp only
      cases m (cacheKey opIdx j) with
      | none => exact hread _
      | some re =>
        simp only
        split
        · exact hread _
        · exact ran_trans W sheetName (hread (Outcome.ok true)) rfl
            (ih (fun g hg => hP g (by simp [hg])) (j + 1) _)

theorem applyActions_ran (row : Nat) (name : String) (P : Event → Prop) (as : List Action)
    (hP : ∀ x ∈ as, P (.setCell (x.column ++ itoa row) x.value) ∧
      P (.info row name (x.column ++ itoa row ++ " -> " ++ x.value)))
    (st : State B) :
    Ran W sheetName P st (applyActions W sheetName row name as st).1
      (applyActions W sheetName row name as st).2 := by
  induction as generalizing st with
  | nil => exact ran_refl W sheetName P st _
  | cons x as ih =>
    simp only [applyActions]
    cases hset : W.setCellValue st.book sheetName (x.column ++ itoa row) x.value with
    | error e =>
      refine ⟨[.setCell (x.column ++ itoa row) x.value], rfl, ?_, ?_, ?_⟩
      · simpa using (hP x (by simp)).1
      · simp [replay, writeStep, hset, State.log]
      · intro h; simp [Outcome.isOk] at h
    | ok b1 =>
      simp only
      have hstep : Ran W sheetName P st (Outcome.ok () : Outcome E Unit)
          ((State.mk b1 (st.log (.setCell (x.column ++ itoa row) x.value)).trace).log
            (.info row name (x.column ++ itoa row ++ " -> " ++ x.value))) := by
        refine ⟨[.setCell (x.column ++ itoa row) x.value,
          .info row name (x.column ++ itoa row ++ " -> " ++ x.value)], ?_, ?_, ?_, ?_⟩
        · simp [State.log]
        · intro ev hev
          simp only [List.mem_cons, List.mem_singleton, List.not_mem_nil, or_false] at hev
          rcases hev with rfl | rfl
          · exact (hP x (by simp)).1
          · exact (hP x (by simp)).2
        · simp [replay, writeStep, hset, State.log]
        · intro _
          exact ⟨⟨b1, hset⟩, trivial, trivial⟩
      exact ran_trans W sheetName hstep rfl (ih (fun y hy => hP y (by simp [hy])) _)

theorem eventIn_mono {rows rows1 : List Nat} {ops ops1 : List Operation}
    (hr : ∀ r ∈ rows, r ∈ rows1) (ho : ∀ op ∈ ops, op ∈ ops1) (ev : Event)
    (h : EventIn rows ops ev) : EventIn rows1 ops1 ev := by
  cases ev with
  | getCell a =>
    obtain ⟨r, h1, op, h2, h3⟩ := h
    exact ⟨r, hr r h1, op, ho op h2, h3⟩
  | setCell a v =>
    obtain ⟨r, h1, op, h2, h3⟩ := h
    exact ⟨r, hr r h1, op, ho op h2, h3⟩
  | info r name s =>
    obtain ⟨h1, op, h2, h3⟩ := h
    exact ⟨hr r h1, op, ho op h2, h3⟩

theorem processOp_ran (row opIdx : Nat) (op : Operation) (st : State B) :
    Ran W sheetName (EventIn [row] [op]) st (processOp W RE m sheetName row opIdx op st).1
      (processOp W RE m sheetName row opIdx op st).2 := by
  have hf := matchFilters_ran W RE m sheetName row opIdx (EventIn [row] [op]) op.filters
    (fun f hf => ⟨row, by simp, op, by simp, f, hf, rfl⟩) 0 st
  simp only [processOp]
  rcases hmf : matchFilters W RE m sheetName row opIdx 0 op.filters st with ⟨o, st1⟩
  rw [hmf] at hf
  cases o with
  | ok b =>
    cases b with
    | true =>
      simp only
      exact ran_trans W sheetName hf rfl
        (applyActions_ran W sheetName row op.name (EventIn [row] [op]) op.actions
          (fun x hx => ⟨⟨row, by simp, op, by simp, x, hx, rfl, rfl⟩,
            ⟨by simp, op, by simp, x, hx, rfl, rfl⟩⟩) st1)
    | false => exact ran_outcome W sheetName (Outcome.ok false) _ (fun _ => rfl) hf
  | error e => exact ran_outcome W sheetName _ _ (fun h => by simp [Outcome.isOk] at h) hf
  | panicked => exact ran_outcome W sheetName _ _ (fun h => by simp [Outcome.isOk] at h) hf

theorem processOps_ran (row : Nat) (ops : List Operation) (i : Nat) (st : State B) :
    Ran W sheetName (EventIn [row] ops) st (processOps W RE m sheetName row i ops st).1
      (processOps W RE m sheetName row i ops st).2 := by
  induction ops generalizing i st with
  | nil => exact ran_refl W sheetName _ st _
  | cons op rest ih =>
    have h1 : Ran W sheetName (EventIn [row] (op :: rest)) st _ _ :=
      ran_mono W sheetName (eventIn_mono (fun r hr => hr) (fun o ho => by simp_all))
        (processOp_ran W RE m sheetName row i op st)
    simp only [processOps]
    rcases hp : processOp W RE m sheetName row i op st with ⟨o, st1⟩
    rw [hp] at h1
    cases o with
    | ok u =>
      cases u
      simp only
      exact ran_trans W sheetName h1 rfl
        (ran_mono W sheetName (eventIn_mono (fun r hr => hr) (fun o ho => by simp [ho]))
          (ih (i + 1) st1))
    | error e => exact h1
    | panicked => exact h1

theorem processRows_ran (ops : List Operation) (rows : List Nat) (st : State B) :
    Ran W sheetName (EventIn rows ops) st (processRows W RE m sheetName ops rows st).1
      (processRows W RE m sheetName ops rows st).2 := by
  induction rows generalizing st with
  | nil => exact ran_refl W sheetName _ st _
  | cons row rest ih =>
    have h1 : Ran W sheetName (EventIn (row :: rest) ops) st _ _ :=
      ran_mono W sheetName (eventIn_mono (fun r hr => by simp_all) (fun o ho => ho))
        (processOps_ran W RE m sheetName row ops 0 st)
    simp only [processRows]
    rcases hp : processOps W RE m sheetName row 0 ops st with ⟨o, st1⟩
    rw [hp] at h1
    cases o with
    | ok u =>
      cases u
      simp only
      exact ran_trans W sheetName h1 rfl
        (ran_mono W sheetName (eventIn_mono (fun r hr => by simp [hr]) (fun o ho => ho))
          (ih st1))
    | error e => exact h1
    | panicked => exact h1

end ProcessLemmas

/-! ## The single rule -/

section SingleRule

variable {B E R : Type} (W : Workbook B E) (RE : Regexp R) (m : Cache R) (sheetName : String)

theorem memWorkbook_lawful (sheetName : String) : Lawful memWorkbook sheetName where
  get_set_same := by
    intro b b1 a a1 v c hset ha ha1
    simp only [memWorkbook, ha] at hset
    simp only [Except.ok.injEq] at hset
    subst hset
    simp [memWorkbook, ha1]
  get_set_other := by
    intro b b1 a a1 v hset hne
    simp only [memWorkbook] at hset ⊢
    cases ha : cellOf a with
    | none => simp [ha] at hset
    | some c =>
      simp only [ha, Except.ok.injEq] at hset
      subst hset
      cases ha1 : cellOf a1 with
      | none => rfl
      | some c1 =>
        have : c1 ≠ c := by
          intro h; apply hne; rw [ha, ha1, h]
        simp [this]

theorem get_writeStep_other (hW : Lawful W sheetName) (b : B) (ev : Event) (a : String)
    (h : ∀ a1 v1, ev = .setCell a1 v1 → cellOf a ≠ cellOf a1) :
    W.getCellValue (writeStep W sheetName b ev) sheetName a = W.getCellValue b sheetName a := by
  cases ev with
  | getCell _ => rfl
  | info _ _ _ => rfl
  | setCell a1 v1 =>
    simp only [writeStep]
    cases hset : W.setCellValue b sheetName a1 v1 with
    | error e => rfl
    | ok b1 => exact hW.get_set_other b b1 a1 a v1 hset (h a1 v1 rfl)

/-- Reads of a cell that no write of the trace denotes are not affected by the
trace. -/
theorem get_replay_other (hW : Lawful W sheetName) (evs : List Event) (b : B) (a : String)
    (h : ∀ a1 v1, Event.setCell a1 v1 ∈ evs → cellOf a ≠ cellOf a1) :
    W.getCellValue (replay W sheetName b evs) sheetName a = W.getCellValue b sheetName a := by
  induction evs generalizing b with
  | nil => rfl
  | cons ev evs ih =>
    simp only [replay, List.foldl_cons]
    have := ih (writeStep W sheetName b ev) (fun a1 v1 hm => h a1 v1 (by simp [hm]))
    simp only [replay] at this
    rw [this]
    exact get_writeStep_other W sheetName hW b ev a (fun a1 v1 he => h a1 v1 (by simp [he]))

/-- After a trace whose writes all succeed, a cell holds the value of the last
write that denotes it. -/
theorem get_replay_last (hW : Lawful W sheetName) (e1 e2 : List Event) (b : B)
    (a1 v a : String) (c : List Char × Nat)
    (hok : writesOk W sheetName b (e1 ++ Event.setCell a1 v :: e2))
    (ha1 : cellOf a1 = some c) (ha : cellOf a = some c)
    (hlast : ∀ a2 v2, Event.setCell a2 v2 ∈ e2 → cellOf a2 ≠ some c) :
    W.getCellValue (replay W sheetName b (e1 ++ Event.setCell a1 v :: e2)) sheetName a = .ok v := by
  rw [writesOk_append] at hok
  obtain ⟨-, ⟨b1, hset⟩, -⟩ := hok
  rw [replay_append]
  have : replay W sheetName (replay W sheetName b e1) (Event.setCell a1 v :: e2) =
      replay W sheetName b1 e2 := by
    show replay W sheetName (writeStep W sheetName (replay W sheetName b e1) _) e2 = _
    simp only [writeStep, hset]
  rw [this, get_replay_other W sheetName hW e2 b1 a
    (fun a2 v2 hm => by rw [ha]; exact fun h => hlast a2 v2 hm h.symm)]
  exact hW.get_set_same _ b1 a1 a v c hset ha1 ha


theorem cellOf_A (r : Nat) (hr : 0 < r) : cellOf ("A" ++ itoa r) = some (['A'], r) :=
  cellOf_letters_itoa "A" r (by decide) (by decide) hr

theorem cellOf_B (r : Nat) (hr : 0 < r) : cellOf ("B" ++ itoa r) = some (['B'], r) :=
  cellOf_letters_itoa "B" r (by decide) (by decide) hr

/-- One row under the single rule: the cell in column A is read, and the cell
in column B is written exactly when the pattern matches the text read. -/
theorem singleRule_row (name p v : String) (re : R) (hm : m (cacheKey 0 0) = some re)
    (row : Nat) (st st1 : State B)
    (h : processOps W RE m sheetName row 0 (singleRule name p v).operations st = (.ok (), st1)) :
    ∃ t, W.getCellValue st.book sheetName ("A" ++ itoa row) = .ok t ∧
      if RE.matchString re t = true then
        W.setCellValue st.book sheetName ("B" ++ itoa row) v = .ok st1.book
      else st1.book = st.book := by
  simp only [singleRule, processOps, processOp, matchFilters, hm] at h
  cases hget : W.getCellValue st.book sheetName ("A" ++ itoa row) with
  | error e => simp [hget] at h
  | ok t =>
    refine ⟨t, rfl, ?_⟩
    simp only [hget] at h
    cases hmt : RE.matchString re t with
    | false =>
      simp only [hmt, Bool.not_false, if_true, Prod.mk.injEq, true_and] at h
      simp [← h, State.log]
    | true =>
      simp only [hmt, Bool.not_true, Bool.false_eq_true, if_false, applyActions] at h
      cases hset : W.setCellValue (st.log (.getCell ("A" ++ itoa row))).book sheetName
          ("B" ++ itoa row) v with
      | error e => simp [hset] at h
      | ok b1 =>
        simp only [hset, Prod.mk.injEq, true_and] at h
        simp only [if_true]
        rw [← h]
        exact hset

theorem singleRule_rows (hW : Lawful W sheetName) (name p v : String) (re : R)
    (hm : m (cacheKey 0 0) = some re) (rows : List Nat) (hnd : rows.Nodup)
    (hpos : ∀ r ∈ rows, 0 < r) (st st1 : State B)
    (h : processRows W RE m sheetName (singleRule name p v).operations rows st = (.ok (), st1)) :
    (∀ r, 0 < r → W.getCellValue st1.book sheetName ("A" ++ itoa r) =
        W.getCellValue st.book sheetName ("A" ++ itoa r)) ∧
    (∀ r, 0 < r → r ∉ rows → W.getCellValue st1.book sheetName ("B" ++ itoa r) =
        W.getCellValue st.book sheetName ("B" ++ itoa r)) ∧
    (∀ r ∈ rows, ∃ t, W.getCellValue st.book sheetName ("A" ++ itoa r) = .ok t ∧
        W.getCellValue st1.book sheetName ("B" ++ itoa r) =
          if RE.matchString re t = true then .ok v
          else W.getCellValue st.book sheetName ("B" ++ itoa r)) := by
  induction rows generalizing st with
  | nil =>
    simp only [processRows, Prod.mk.injEq, true_and] at h
    subst h
    simp
  | cons r0 rest ih =>
    simp only [processRows] at h
    rcases hp : processOps W RE m sheetName r0 0 (singleRule name p v).operations st with ⟨o, st2⟩
    rw [hp] at h
    cases o with
    | error e => simp at h
    | panicked => simp at h
    | ok u =>
      cases u
      simp only at h
      have hr0 : 0 < r0 := hpos r0 (by simp)
      obtain ⟨t0, hget0, hstep⟩ := singleRule_row W RE m sheetName name p v re hm r0 st st2 hp
      obtain ⟨ihA, ihB, ihR⟩ := ih (List.nodup_cons.1 hnd).2
        (fun r hr => hpos r (by simp [hr])) st2 h
      -- what the step leaves unchanged
      have keep : ∀ a, cellOf a ≠ cellOf ("B" ++ itoa r0) →
          W.getCellValue st2.book sheetName a = W.getCellValue st.book sheetName a := by
        intro a ha
        split_ifs at hstep with hmt
        · exact hW.get_set_other _ _ _ a v hstep ha
        · rw [hstep]
      have keepA : ∀ r, 0 < r → W.getCellValue st2.book sheetName ("A" ++ itoa r) =
          W.getCellValue st.book sheetName ("A" ++ itoa r) := by
        intro r hr
        apply keep
        rw [cellOf_A r hr, cellOf_B r0 hr0]
        simp
      have keepB : ∀ r, 0 < r → r ≠ r0 → W.getCellValue st2.book sheetName ("B" ++ itoa r) =
          W.getCellValue st.book sheetName ("B" ++ itoa r) := by
        intro r hr hne
        apply keep
        rw [cellOf_B r hr, cellOf_B r0 hr0]
        simp [hne]
      refine ⟨?_, ?_, ?_⟩
      · intro r hr
        rw [ihA r hr, keepA r hr]
      · intro r hr hnot
        simp only [List.mem_cons, not_or] at hnot
        rw [ihB r hr hnot.2, keepB r hr hnot.1]
      · intro r hr
        rcases List.mem_cons.1 hr with rfl | hr
        · clear hr
          refine ⟨t0, hget0, ?_⟩
          rw [ihB r hr0 (List.nodup_cons.1 hnd).1]
          split_ifs at hstep ⊢ with hmt
          · exact hW.get_set_same _ _ _ _ v _ hstep (cellOf_B r hr0) (cellOf_B r hr0)
          · rw [hstep]
        · obtain ⟨t, hget, hval⟩ := ihR r hr
          have hrpos := hpos r (by simp [hr])
          have hne : r ≠ r0 := by
            intro heq
            rw [heq] at hr
            exact (List.nodup_cons.1 hnd).1 hr
          refine ⟨t, by rw [← keepA r hrpos]; exact hget, ?_⟩
          rw [hval, keepB r hrpos hne]

theorem mem_dataRows (n r : Nat) : r ∈ dataRows n ↔ 2 ≤ r ∧ r ≤ n := by
  simp only [dataRows, List.mem_range'_1]
  omega

theorem nodup_dataRows (n : Nat) : (dataRows n).Nodup := List.nodup_range' 2 (n - 1)

end SingleRule

/-! ## The loop over filters -/

section FilterLoop

variable {B E R : Type} (W : Workbook B E) (RE : Regexp R) (m : Cache R) (sheetName : String)

theorem writesOf_append (e1 e2 : List Event) : writesOf (e1 ++ e2) = writesOf e1 ++ writesOf e2 := by
  induction e1 with
  | nil => rfl
  | cons ev e1 ih => cases ev <;> simp [writesOf, ih]

theorem readsOf_append (e1 e2 : List Event) : readsOf (e1 ++ e2) = readsOf e1 ++ readsOf e2 := by
  induction e1 with
  | nil => rfl
  | cons ev e1 ih => cases ev <;> simp [readsOf, ih]

theorem writesOf_filterReads (row : Nat) (fs : List Filter) : writesOf (filterReads row fs) = [] := by
  induction fs with
  | nil => rfl
  | cons f fs ih => simpa [filterReads, writesOf] using ih

/-- When every filter matches, the loop over filters reads the cell of every
filter and leaves `matched` true. -/
theorem matchFilters_all (row i : Nat) (fs : List Filter) (j : Nat) (st : State B)
    (hc : ∀ k f, fs[k]? = some f →
      ∃ re, RE.compile f.value = some re ∧ m (cacheKey i (j + k)) = some re)
    (hall : filtersMatch W RE sheetName st.book row fs = true) :
    matchFilters W RE m sheetName row i j fs st =
      (.ok true, ⟨st.book, st.trace ++ filterReads row fs⟩) := by
  induction fs generalizing j st with
  | nil => simp [matchFilters, filterReads]
  | cons f fs ih =>
    obtain ⟨re, hre, hm⟩ := hc 0 f (by simp)
    simp only [filtersMatch, List.all_cons, Bool.and_eq_true, filterMatches, hre] at hall
    obtain ⟨hf, hrest⟩ := hall
    simp only [matchFilters]
    cases hget : W.getCellValue st.book sheetName (f.column ++ itoa row) with
    | error e => simp [hget] at hf
    | ok t =>
      simp only [hget] at hf
      simp only [show j + 0 = j from rfl] at hm
      simp only [hm, hf, Bool.not_true, Bool.false_eq_true, if_false]
      rw [ih (j + 1) (st.log (.getCell (f.column ++ itoa row)))
        (fun k g hk => by
          obtain ⟨re1, h1, h2⟩ := hc (k + 1) g (by simpa using hk)
          exact ⟨re1, h1, by rw [← h2]; congr 2; omega⟩)
        (by simpa [filtersMatch, State.log] using hrest)]
      simp [State.log, filterReads]

/-- When some filter does not match, the loop over filters only reads, stops,
and does not leave `matched` true. -/
theorem matchFilters_some (row i : Nat) (fs : List Filter) (j : Nat) (st : State B)
    (hc : ∀ k f, fs[k]? = some f →
      ∃ re, RE.compile f.value = some re ∧ m (cacheKey i (j + k)) = some re)
    (hall : filtersMatch W RE sheetName st.book row fs = false) :
    ∃ o evs, matchFilters W RE m sheetName row i j fs st = (o, ⟨st.book, st.trace ++ evs⟩) ∧
      o ≠ .ok true ∧ o ≠ .panicked ∧ writesOf evs = [] := by
  induction fs generalizing j st with
  | nil => simp [filtersMatch] at hall
  | cons f fs ih =>
    obtain ⟨re, hre, hm⟩ := hc 0 f (by simp)
    simp only [show j + 0 = j from rfl] at hm
    simp only [matchFilters, hm]
    cases hget : W.getCellValue st.book sheetName (f.column ++ itoa row) with
    | error e =>
      exact ⟨.error e, [.getCell (f.column ++ itoa row)], rfl, by simp, by simp, rfl⟩
    | ok t =>
      simp only
      cases hmt : RE.matchString re t with
      | false =>
        exact ⟨.ok false, [.getCell (f.column ++ itoa row)], rfl, by simp, by simp, rfl⟩
      | true =>
        simp only [Bool.not_true, Bool.false_eq_true, if_false]
        have hrest : filtersMatch W RE sheetName st.book row fs = false := by
          simpa [filtersMatch, filterMatches, hre, hget, hmt] using hall
        obtain ⟨o, evs, h1, h2, h3, h4⟩ := ih (j + 1) (st.log (.getCell (f.column ++ itoa row)))
          (fun k g hk => by
            obtain ⟨re1, h1, h2⟩ := hc (k + 1) g (by simpa using hk)
            exact ⟨re1, h1, by rw [← h2]; congr 2; omega⟩)
          (by simpa [State.log] using hrest)
        refine ⟨o, .getCell (f.column ++ itoa row) :: evs, ?_, h2, h3, by simpa [writesOf] using h4⟩
        rw [h1]
        simp [State.log]

end FilterLoop

/-! ## The loop over actions and the loops around it -/

section ActionLoop

variable {B E R : Type} (W : Workbook B E) (RE : Regexp R) (m : Cache R) (sheetName : String)

/-- A loop over actions that returns normally made the write and the log line
of every action, in order. -/
theorem applyActions_ok_trace (row : Nat) (name : String) (as : List Action) (st st1 : State B)
    (h : applyActions W sheetName row name as st = (.ok (), st1)) :
    st1.trace = st.trace ++ actionEvents row name as := by
  induction as generalizing st with
  | nil =>
    simp only [applyActions, Prod.mk.injEq, true_and] at h
    simp [← h, actionEvents]
  | cons x as ih =>
    simp only [applyActions] at h
    cases hset : W.setCellValue st.book sheetName (x.column ++ itoa row) x.value with
    | error e => simp [hset] at h
    | ok b1 =>
      simp only [hset] at h
      rw [ih _ h]
      simp [State.log, actionEvents]

theorem readsOf_actionEvents (row : Nat) (name : String) (as : List Action) :
    readsOf (actionEvents row name as) = [] := by
  induction as with
  | nil => rfl
  | cons x as ih => simpa [actionEvents, readsOf] using ih

theorem writesOf_actionEvents (row : Nat) (name : String) (as : List Action) :
    writesOf (actionEvents row name as) = as.map (fun x => (x.column ++ itoa row, x.value)) := by
  induction as with
  | nil => rfl
  | cons x as ih => simpa [actionEvents, writesOf] using ih

theorem mem_actionEvents (row : Nat) (name : String) (as : List Action) (x : Action)
    (hx : x ∈ as) : Event.setCell (x.column ++ itoa row) x.value ∈ actionEvents row name as := by
  induction as with
  | nil => simp at hx
  | cons y as ih =>
    rcases List.mem_cons.1 hx with rfl | hx
    · simp [actionEvents]
    · simp [actionEvents, ih hx]

/-- An operation without filters is the loop over its actions. -/
theorem processOp_no_filters (row i : Nat) (op : Operation) (hnil : op.filters = [])
    (st : State B) :
    processOp W RE m sheetName row i op st =
      applyActions W sheetName row op.name op.actions st := by
  simp only [processOp, hnil, matchFilters]

theorem trace_prefix {α : Type} {P : Event → Prop} {st st1 : State B} {o : Outcome E α}
    (h : Ran W sheetName P st o st1) (ev : Event) (hev : ev ∈ st.trace) : ev ∈ st1.trace := by
  obtain ⟨evs, h1, -⟩ := h
  rw [h1]
  exact List.mem_append_left _ hev

theorem processOps_no_filters_mem (row : Nat) (ops : List Operation) (i : Nat)
    (st st1 : State B) (h : processOps W RE m sheetName row i ops st = (.ok (), st1))
    (op : Operation) (hop : op ∈ ops) (hnil : op.filters = []) (x : Action)
    (hx : x ∈ op.actions) : Event.setCell (x.column ++ itoa row) x.value ∈ st1.trace := by
  induction ops generalizing i st with
  | nil => simp at hop
  | cons o rest ih =>
    simp only [processOps] at h
    rcases hp : processOp W RE m sheetName row i o st with ⟨out, st2⟩
    rw [hp] at h
    cases out with
    | error e => simp at h
    | panicked => simp at h
    | ok u =>
      cases u
      simp only at h
      rcases List.mem_cons.1 hop with rfl | hop
      · have hr := processOps_ran W RE m sheetName row rest (i + 1) st2
        rw [h] at hr
        apply trace_prefix W sheetName hr
        rw [processOp_no_filters W RE m sheetName row i op hnil] at hp
        rw [applyActions_ok_trace W sheetName row op.name op.actions st st2 hp]
        exact List.mem_append_right _ (mem_actionEvents row op.name op.actions x hx)
      · exact ih (i + 1) st2 h hop

theorem processRows_no_filters_mem (ops : List Operation) (rows : List Nat)
    (st st1 : State B) (h : processRows W RE m sheetName ops rows st = (.ok (), st1))
    (op : Operation) (hop : op ∈ ops) (hnil : op.filters = []) (x : Action)
    (hx : x ∈ op.actions) (r : Nat) (hr : r ∈ rows) :
    Event.setCell (x.column ++ itoa r) x.value ∈ st1.trace := by
  induction rows generalizing st with
  | nil => simp at hr
  | cons r0 rest ih =>
    simp only [processRows] at h
    rcases hp : processOps W RE m sheetName r0 0 ops st with ⟨out, st2⟩
    rw [hp] at h
    cases out with
    | error e => simp at h
    | panicked => simp at h
    | ok u =>
      cases u
      simp only at h
      rcases List.mem_cons.1 hr with rfl | hr
      · have hran := processRows_ran W RE m sheetName ops rest st2
        rw [h] at hran
        exact trace_prefix W sheetName hran _
          (processOps_no_filters_mem W RE m sheetName r ops 0 st st2 hp op hop hnil x hx)
      · exact ih st2 h hr

end ActionLoop

section ProcessRun

variable {B E R : Type} (W : Workbook B E) (RE : Regexp R) (m : Cache R) (sheetName : String)

/-- What a call of `process` did, whatever its outcome. -/
theorem process_ran (cfg : Config) (st : State B) (n : Nat)
    (hn : ∀ rows, W.getRows st.book sheetName = .ok rows → rows.length = n) :
    Ran W sheetName (EventIn (dataRows n) cfg.operations) st
      (process W RE m sheetName cfg st).1 (process W RE m sheetName cfg st).2 := by
  simp only [process]
  cases hrows : W.getRows st.book sheetName with
  | error e => exact ran_refl W sheetName _ st _
  | ok rows =>
    simp only
    rw [hn rows hrows]
    exact processRows_ran W RE m sheetName cfg.operations (dataRows n) st

end ProcessRun

section Sequencing

variable {B E R : Type} (W : Workbook B E) (RE : Regexp R) (m : Cache R) (sheetName : String)

/-- The loop over operations on a list in two parts: the first part, then the
second part from the state the first part leaves. -/
theorem processOps_append (row : Nat) (pre post : List Operation) (i : Nat) (st : State B) :
    processOps W RE m sheetName row i (pre ++ post) st =
      match processOps W RE m sheetName row i pre st with
      | (.ok (), st1) => processOps W RE m sheetName row (i + pre.length) post st1
      | r => r := by
  induction pre generalizing i st with
  | nil => simp [processOps]
  | cons op pre ih =>
    simp only [List.cons_append, processOps, List.length_cons]
    rcases hp : processOp W RE m sheetName row i op st with ⟨o, st2⟩
    cases o with
    | ok u =>
      cases u
      simp only
      rw [show pre.append post = pre ++ post from rfl, ih (i + 1) st2]
      have : i + 1 + pre.length = i + (pre.length + 1) := by omega
      rw [this]
    | error e => rfl
    | panicked => rfl

/-- The loop over rows on a list in two parts. -/
theorem processRows_append (ops : List Operation) (rs1 rs2 : List Nat) (st : State B) :
    processRows W RE m sheetName ops (rs1 ++ rs2) st =
      match processRows W RE m sheetName ops rs1 st with
      | (.ok (), st1) => processRows W RE m sheetName ops rs2 st1
      | r => r := by
  induction rs1 generalizing st with
  | nil => simp [processRows]
  | cons r rs1 ih =>
    simp only [List.cons_append, processRows]
    rcases hp : processOps W RE m sheetName r 0 ops st with ⟨o, st2⟩
    cases o with
    | ok u =>
      cases u
      simp only
      rw [show rs1.append rs2 = rs1 ++ rs2 from rfl, ih st2]
    | error e => rfl
    | panicked => rfl

end Sequencing

section HeaderRow

variable {B E R : Type} (W : Workbook B E) (RE : Regexp R) (m : Cache R) (sheetName : String)

/-- An address built from a column string and the numeral of a row from 2 on
does not denote a cell of row 1. -/
theorem rowOf_append_itoa (col : String) (r : Nat) (hr : 2 ≤ r) :
    rowOf (col ++ itoa r) ≠ some 1 := by
  intro h
  simp only [rowOf, Option.map_eq_some'] at h
  obtain ⟨c, hc, h1⟩ := h
  have := cellOf_append_itoa col r c hc
  omega

theorem mem_readsOf (evs : List Event) (a : String) (h : a ∈ readsOf evs) :
    Event.getCell a ∈ evs := by
  induction evs with
  | nil => simp [readsOf] at h
  | cons ev evs ih =>
    cases ev with
    | getCell b =>
      simp only [readsOf, List.mem_cons] at h
      rcases h with rfl | h
      · simp
      · simp [ih h]
    | setCell b v => simp only [readsOf] at h; simp [ih h]
    | info r n s => simp only [readsOf] at h; simp [ih h]

theorem mem_writesOf (evs : List Event) (w : String × String) (h : w ∈ writesOf evs) :
    Event.setCell w.1 w.2 ∈ evs := by
  induction evs with
  | nil => simp [writesOf] at h
  | cons ev evs ih =>
    cases ev with
    | getCell b => simp only [writesOf] at h; simp [ih h]
    | setCell b v =>
      simp only [writesOf, List.mem_cons] at h
      rcases h with rfl | h
      · simp
      · simp [ih h]
    | info r n s => simp only [writesOf] at h; simp [ih h]

end HeaderRow

section ValidateOutcome

variable {R : Type} (RE : Regexp R)

theorem mem_filterItems (i : Nat) (fs : List Filter) (j : Nat) (x : Item) :
    x ∈ filterItems i j fs ↔ ∃ k f, fs[k]? = some f ∧ x = .filter i (j + k) f := by
  induction fs generalizing j with
  | nil => simp [filterItems]
  | cons g fs ih =>
    simp only [filterItems, List.mem_cons, ih]
    constructor
    · rintro (rfl | ⟨k, f, hk, rfl⟩)
      · exact ⟨0, g, by simp, rfl⟩
      · exact ⟨k + 1, f, by simpa using hk, by congr 1; omega⟩
    · rintro ⟨k, f, hk, rfl⟩
      cases k with
      | zero =>
        simp only [List.getElem?_cons_zero, Option.some.injEq] at hk
        subst hk
        exact Or.inl rfl
      | succ k =>
        exact Or.inr ⟨k, f, by simpa using hk, by congr 1; omega⟩

theorem mem_actionItems (i : Nat) (as : List Action) (j : Nat) (x : Item) :
    x ∈ actionItems i j as ↔ ∃ k a, as[k]? = some a ∧ x = .action i (j + k) a := by
  induction as generalizing j with
  | nil => simp [actionItems]
  | cons g as ih =>
    simp only [actionItems, List.mem_cons, ih]
    constructor
    · rintro (rfl | ⟨k, f, hk, rfl⟩)
      · exact ⟨0, g, by simp, rfl⟩
      · exact ⟨k + 1, f, by simpa using hk, by congr 1; omega⟩
    · rintro ⟨k, f, hk, rfl⟩
      cases k with
      | zero =>
        simp only [List.getElem?_cons_zero, Option.some.injEq] at hk
        subst hk
        exact Or.inl rfl
      | succ k =>
        exact Or.inr ⟨k, f, by simpa using hk, by congr 1; omega⟩

/-- The items from index `i` on are the filters and the actions of the
operations, each at its position. -/
theorem mem_itemsFrom (ops : List Operation) (i : Nat) (x : Item) :
    x ∈ itemsFrom i ops ↔
      ∃ k op, ops[k]? = some op ∧
        ((∃ j f, op.filters[j]? = some f ∧ x = .filter (i + k) j f) ∨
         (∃ j a, op.actions[j]? = some a ∧ x = .action (i + k) j a)) := by
  induction ops generalizing i with
  | nil => simp [itemsFrom]
  | cons o ops ih =>
    simp only [itemsFrom, List.mem_append, mem_filterItems, mem_actionItems, ih, Nat.zero_add]
    constructor
    · rintro ((⟨j, f, hj, rfl⟩ | ⟨j, a, hj, rfl⟩) | ⟨k, op, hk, h⟩)
      · exact ⟨0, o, by simp, Or.inl ⟨j, f, hj, rfl⟩⟩
      · exact ⟨0, o, by simp, Or.inr ⟨j, a, hj, rfl⟩⟩
      · refine ⟨k + 1, op, by simpa using hk, ?_⟩
        rcases h with ⟨j, f, hj, rfl⟩ | ⟨j, a, hj, rfl⟩
        · exact Or.inl ⟨j, f, hj, by congr 1; omega⟩
        · exact Or.inr ⟨j, a, hj, by congr 1; omega⟩
    · rintro ⟨k, op, hk, h⟩
      cases k with
      | zero =>
        simp only [List.getElem?_cons_zero, Option.some.injEq] at hk
        subst hk
        rcases h with ⟨j, f, hj, rfl⟩ | ⟨j, a, hj, rfl⟩
        · exact Or.inl (Or.inl ⟨j, f, hj, rfl⟩)
        · exact Or.inl (Or.inr ⟨j, a, hj, rfl⟩)
      | succ k =>
        refine Or.inr ⟨k, op, by simpa using hk, ?_⟩
        rcases h with ⟨j, f, hj, rfl⟩ | ⟨j, a, hj, rfl⟩
        · exact Or.inl ⟨j, f, hj, by congr 1; omega⟩
        · exact Or.inr ⟨j, a, hj, by congr 1; omega⟩

/-- The outcome of `validate` is an error exactly when the items split at a
first item that does not pass and that item has an empty column; the error
then names its position. -/
theorem validate_error_iff (cfg : Config) (m : Cache R) (e : String) :
    (validate RE (some cfg) m).1 = .error e ↔
      ∃ pre x post, items cfg = pre ++ x :: post ∧ (∀ y ∈ pre, y.check RE = none) ∧
        x.column = "" ∧ e = x.columnEmpty := by
  rw [validate_eq_checkAll]
  constructor
  · intro h
    rcases checkAll_cases RE (items cfg) with hp | ⟨pre, x, post, o, h1, h2, h3⟩
    · rw [checkAll_pass RE _ _ hp] at h
      simp at h
    · rw [h1, checkAll_fail RE pre post x o m h2 h3] at h
      simp only at h
      subst h
      refine ⟨pre, x, post, h1, h2, ?_⟩
      simp only [Item.check] at h3
      split_ifs at h3 with hc hb
      · simp only [Option.some.injEq, Outcome.error.injEq] at h3
        exact ⟨hc, h3.symm⟩
      · simp at h3
  · rintro ⟨pre, x, post, h1, h2, hc, rfl⟩
    rw [h1, checkAll_fail RE pre post x (.error x.columnEmpty) m h2 (by simp [Item.check, hc])]

/-- The outcome of `validate` is a panic exactly when the items split at a
first item that does not pass and that item is a filter with a column whose
value does not compile. -/
theorem validate_panicked_iff (cfg : Config) (m : Cache R) :
    (validate RE (some cfg) m).1 = .panicked ↔
      ∃ pre x post, items cfg = pre ++ x :: post ∧ (∀ y ∈ pre, y.check RE = none) ∧
        x.badPattern RE = true := by
  rw [validate_eq_checkAll]
  constructor
  · intro h
    rcases checkAll_cases RE (items cfg) with hp | ⟨pre, x, post, o, h1, h2, h3⟩
    · rw [checkAll_pass RE _ _ hp] at h
      simp at h
    · rw [h1, checkAll_fail RE pre post x o m h2 h3] at h
      simp only at h
      subst h
      refine ⟨pre, x, post, h1, h2, ?_⟩
      simp only [Item.check] at h3
      split_ifs at h3 with hc hb
      · simp at h3
      · exact hb
  · rintro ⟨pre, x, post, h1, h2, hb⟩
    have hc : x.column ≠ "" := by
      cases x with
      | filter i j f => simpa [Item.badPattern, Item.column] using And.left (by simpa [Item.badPattern] using hb)
      | action i j a => simp [Item.badPattern] at hb
    rw [h1, checkAll_fail RE pre post x .panicked m h2 (by simp [Item.check, hc, hb])]

/-- A configuration with a filter whose value does not compile is not
accepted: the outcome of `validate` is not the normal one. -/
theorem validate_bad_pattern (cfg : Config) (m : Cache R) (h : hasBadPattern RE cfg = true) :
    (validate RE (some cfg) m).1 ≠ .ok () := by
  simp only [hasBadPattern, List.any_eq_true, Option.isNone_iff_eq_none] at h
  obtain ⟨op, hop, f, hf, hbad⟩ := h
  obtain ⟨k, hk⟩ := List.getElem?_of_mem hop
  obtain ⟨j, hj⟩ := List.getElem?_of_mem hf
  have hmem : Item.filter k j f ∈ items cfg := by
    rw [items, mem_itemsFrom]
    exact ⟨k, op, hk, Or.inl ⟨j, f, hj, by rw [Nat.zero_add]⟩⟩
  rw [validate_eq_checkAll]
  rcases checkAll_cases RE (items cfg) with hp | ⟨pre, x, post, o, h1, h2, h3⟩
  · obtain ⟨-, re, hre⟩ := check_filter_none RE k j f (hp _ hmem)
    rw [hbad] at hre
    cases hre
  · rw [h1, checkAll_fail RE pre post x o m h2 h3]
    exact check_ne_ok RE x o h3

end ValidateOutcome

/-! ## No panic under a complete cache -/

section NoPanic

variable {B E R : Type} (W : Workbook B E) (RE : Regexp R) (m : Cache R) (sheetName : String)

theorem matchFilters_not_panicked (row i : Nat) (fs : List Filter) (j : Nat) (st : State B)
    (hc : ∀ k f, fs[k]? = some f →
      ∃ re, RE.compile f.value = some re ∧ m (cacheKey i (j + k)) = some re) :
    (matchFilters W RE m sheetName row i j fs st).1 ≠ .panicked := by
  cases hall : filtersMatch W RE sheetName st.book row fs with
  | true =>
    rw [matchFilters_all W RE m sheetName row i fs j st hc hall]
    simp
  | false =>
    obtain ⟨o, evs, h1, -, h3, -⟩ := matchFilters_some W RE m sheetName row i fs j st hc hall
    rw [h1]
    exact h3

theorem applyActions_not_panicked (row : Nat) (name : String) (as : List Action)
    (st : State B) : (applyActions W sheetName row name as st).1 ≠ .panicked := by
  induction as generalizing st with
  | nil => simp [applyActions]
  | cons x as ih =>
    simp only [applyActions]
    cases W.setCellValue st.book sheetName (x.column ++ itoa row) x.value with
    | error e => simp
    | ok b1 => exact ih _

theorem processOp_not_panicked (row i : Nat) (op : Operation) (st : State B)
    (hc : CacheFor RE m i op) :
    (processOp W RE m sheetName row i op st).1 ≠ .panicked := by
  have hmf := matchFilters_not_panicked W RE m sheetName row i op.filters 0 st
    (fun k f hk => by rw [Nat.zero_add]; exact hc k f hk)
  simp only [processOp]
  rcases hres : matchFilters W RE m sheetName row i 0 op.filters st with ⟨o, st1⟩
  rw [hres] at hmf
  cases o with
  | ok b =>
    cases b with
    | true => exact applyActions_not_panicked W sheetName row op.name op.actions st1
    | false => simp
  | error e => simp
  | panicked => exact absurd rfl hmf

theorem processOps_not_panicked (row : Nat) (ops : List Operation) (i : Nat) (st : State B)
    (hc : ∀ k op, ops[k]? = some op → CacheFor RE m (i + k) op) :
    (processOps W RE m sheetName row i ops st).1 ≠ .panicked := by
  induction ops generalizing i st with
  | nil => simp [processOps]
  | cons op rest ih =>
    have h0 := processOp_not_panicked W RE m sheetName row i op st (hc 0 op (by simp))
    simp only [processOps]
    rcases hres : processOp W RE m sheetName row i op st with ⟨o, st1⟩
    rw [hres] at h0
    cases o with
    | ok u =>
      cases u
      exact ih (i + 1) st1 (fun k o hk => by
        have := hc (k + 1) o (by simpa using hk)
        rwa [show i + (k + 1) = i + 1 + k by omega] at this)
    | error e => simp
    | panicked => exact absurd rfl h0

theorem processRows_not_panicked (ops : List Operation) (rows : List Nat) (st : State B)
    (hc : ∀ k op, ops[k]? = some op → CacheFor RE m k op) :
    (processRows W RE m sheetName ops rows st).1 ≠ .panicked := by
  induction rows generalizing st with
  | nil => simp [processRows]
  | cons r rest ih =>
    have h0 := processOps_not_panicked W RE m sheetName r ops 0 st
      (fun k op hk => by rw [Nat.zero_add]; exact hc k op hk)
    simp only [processRows]
    rcases hres : processOps W RE m sheetName r 0 ops st with ⟨o, st1⟩
    rw [hres] at h0
    cases o with
    | ok u => cases u; exact ih st1
    | error e => simp
    | panicked => exact absurd rfl h0

theorem process_not_panicked (cfg : Config) (st : State B)
    (hc : ∀ k op, cfg.operations[k]? = some op → CacheFor RE m k op) :
    (process W RE m sheetName cfg st).1 ≠ .panicked := by
  simp only [process]
  cases W.getRows st.book sheetName with
  | error e => simp
  | ok rows => exact processRows_not_panicked W RE m sheetName cfg.operations _ st hc

end NoPanic

/-! ## The reads of the loop over filters -/

section ShortCircuit

variable {B E R : Type} (W : Workbook B E) (RE : Regexp R) (m : Cache R) (sheetName : String)

theorem readCount_cons (b : B) (row : Nat) (f : Filter) (fs : List Filter) :
    readCount W RE sheetName b row (f :: fs) =
      if filterMatches W RE sheetName b row f = true then
        readCount W RE sheetName b row fs + 1
      else 1 := by
  simp only [readCount, List.findIdx?_cons]
  cases hf : filterMatches W RE sheetName b row f with
  | false => simp
  | true =>
    simp only [Bool.not_true, Bool.false_eq_true, if_false, if_true, Nat.zero_add]
    rw [List.findIdx?_succ]
    cases List.findIdx? (fun f => !filterMatches W RE sheetName b row f) fs 0 with
    | none => simp
    | some k => simp

theorem readCount_le (b : B) (row : Nat) (fs : List Filter) :
    readCount W RE sheetName b row fs ≤ fs.length := by
  induction fs with
  | nil => simp [readCount]
  | cons f fs ih =>
    rw [readCount_cons]
    split
    · simp only [List.length_cons]; omega
    · simp

/-- The loop over filters reads the cells of the filters up to the first one
that does not match, in order, and nothing else; it leaves the book as it
is. -/
theorem matchFilters_reads (row i : Nat) (fs : List Filter) (j : Nat) (st : State B)
    (hc : ∀ k f, fs[k]? = some f →
      ∃ re, RE.compile f.value = some re ∧ m (cacheKey i (j + k)) = some re) :
    (matchFilters W RE m sheetName row i j fs st).2 =
      ⟨st.book, st.trace ++
        filterReads row (fs.take (readCount W RE sheetName st.book row fs))⟩ := by
  induction fs generalizing j st with
  | nil => simp [matchFilters, filterReads]
  | cons f fs ih =>
    obtain ⟨re, hre, hm⟩ := hc 0 f (by simp)
    simp only [show j + 0 = j from rfl] at hm
    rw [readCount_cons]
    simp only [matchFilters, hm, filterMatches, hre]
    cases hget : W.getCellValue st.book sheetName (f.column ++ itoa row) with
    | error e => simp [State.log, filterReads]
    | ok t =>
      simp only
      by_cases hmt : RE.matchString re t = true
      · simp only [hmt, Bool.not_true, Bool.false_eq_true, if_false, if_true]
        rw [ih (j + 1) (st.log (.getCell (f.column ++ itoa row)))
          (fun k g hk => by
            obtain ⟨re1, h1, h2⟩ := hc (k + 1) g (by simpa using hk)
            exact ⟨re1, h1, by rw [← h2]; congr 2; omega⟩)]
        simp [State.log, filterReads]
      · simp only [Bool.not_eq_true] at hmt
        simp [hmt, State.log, filterReads]

theorem readsOf_filterReads (row : Nat) (fs : List Filter) :
    readsOf (filterReads row fs) = fs.map (fun f => f.column ++ itoa row) := by
  induction fs with
  | nil => rfl
  | cons f fs ih => simpa [filterReads, readsOf] using ih

/-- The loop over actions makes no read, whatever its outcome. -/
theorem applyActions_no_reads (row : Nat) (name : String) (as : List Action) (st : State B) :
    ∃ evs, (applyActions W sheetName row name as st).2.trace = st.trace ++ evs ∧
      readsOf evs = [] := by
  induction as generalizing st with
  | nil => exact ⟨[], by simp [applyActions], rfl⟩
  | cons x as ih =>
    simp only [applyActions]
    cases W.setCellValue st.book sheetName (x.column ++ itoa row) x.value with
    | error e => exact ⟨[.setCell (x.column ++ itoa row) x.value], rfl, rfl⟩
    | ok b1 =>
      obtain ⟨evs, h1, h2⟩ := ih ((State.mk b1 (st.log (.setCell (x.column ++ itoa row)
        x.value)).trace).log (.info row name (x.column ++ itoa row ++ " -> " ++ x.value)))
      refine ⟨.setCell (x.column ++ itoa row) x.value ::
        .info row name (x.column ++ itoa row ++ " -> " ++ x.value) :: evs, ?_, ?_⟩
      · simp only [h1]
        simp [State.log]
      · simpa [readsOf] using h2

end ShortCircuit

section ValidatedColumns

variable {R : Type} (RE : Regexp R)

/-- After a successful `validate` every item of the configuration passes its
check. -/
theorem validate_ok_pass (cfg : Config) (m0 m : Cache R)
    (h : validate RE (some cfg) m0 = (.ok (), m)) : ∀ y ∈ items cfg, y.check RE = none := by
  rw [validate_eq_checkAll] at h
  rcases checkAll_cases RE (items cfg) with hp | ⟨pre, x, post, o, h1, h2, h3⟩
  · exact hp
  · rw [h1, checkAll_fail RE pre post x o m0 h2 h3] at h
    simp only [Prod.mk.injEq] at h
    exact absurd h.1 (check_ne_ok RE x o h3)

/-- After a successful `validate` no action has an empty column. -/
theorem validate_ok_action_column (cfg : Config) (m0 m : Cache R)
    (h : validate RE (some cfg) m0 = (.ok (), m)) (i : Nat) (op : Operation)
    (hop : cfg.operations[i]? = some op) (x : Action) (hx : x ∈ op.actions) :
    x.column ≠ "" := by
  obtain ⟨k, hk⟩ := List.getElem?_of_mem hx
  have hmem : Item.action i k x ∈ items cfg := by
    rw [items, mem_itemsFrom]
    exact ⟨i, op, hop, Or.inr ⟨k, x, hk, by rw [Nat.zero_add]⟩⟩
  have := validate_ok_pass RE cfg m0 m h _ hmem
  intro hc
  simp [Item.check, Item.column, hc] at this

end ValidatedColumns

/-! ## Full account of a run -/

section TracedRuns

variable {B E R : Type} (W : Workbook B E) (RE : Regexp R) (m : Cache R) (sheetName : String)

theorem callsOk_append (b : B) (e1 e2 : List Event) :
    callsOk W sheetName b (e1 ++ e2) ↔
      callsOk W sheetName b e1 ∧ callsOk W sheetName (replay W sheetName b e1) e2 := by
  induction e1 generalizing b with
  | nil => simp [callsOk, replay]
  | cons ev e1 ih =>
    show (_ ∧ callsOk W sheetName _ (e1 ++ e2)) ↔ _
    rw [ih]
    simp only [callsOk, replay, List.foldl_cons, and_assoc]

theorem okWrites_append (b : B) (e1 e2 : List Event) :
    okWrites W sheetName b (e1 ++ e2) =
      okWrites W sheetName b e1 ++ okWrites W sheetName (replay W sheetName b e1) e2 := by
  induction e1 generalizing b with
  | nil => simp [okWrites, replay]
  | cons ev e1 ih =>
    cases ev with
    | getCell a =>
      show okWrites W sheetName b (e1 ++ e2) = _
      rw [ih]
      rfl
    | info r n s =>
      show okWrites W sheetName b (e1 ++ e2) = _
      rw [ih]
      rfl
    | setCell a v =>
      simp only [List.cons_append, okWrites, replay, List.foldl_cons, writeStep]
      cases W.setCellValue b sheetName a v with
      | error e =>
        simp only
        have := ih b
        simp only [replay] at this
        exact this
      | ok b1 =>
        simp only [List.cons_append, List.cons.injEq, true_and]
        have := ih b1
        simp only [replay] at this
        exact this

theorem infosOf_append (e1 e2 : List Event) : infosOf (e1 ++ e2) = infosOf e1 ++ infosOf e2 := by
  induction e1 with
  | nil => rfl
  | cons ev e1 ih => cases ev <;> simp [infosOf, ih]

theorem endsWith_append {β : Type} (b : B) (e1 e2 : List Event) (o : Outcome E β)
    (h1 : callsOk W sheetName b e1)
    (h2 : endsWith W sheetName (replay W sheetName b e1) e2 o) :
    endsWith W sheetName b (e1 ++ e2) o := by
  cases o with
  | ok a => exact (callsOk_append W sheetName b e1 e2).2 ⟨h1, h2⟩
  | panicked => exact (callsOk_append W sheetName b e1 e2).2 ⟨h1, h2⟩
  | error e =>
    obtain ⟨pre, ev, hp, hok, hf⟩ := h2
    refine ⟨e1 ++ pre, ev, by rw [hp, List.append_assoc], ?_, ?_⟩
    · exact (callsOk_append W sheetName b e1 pre).2 ⟨h1, hok⟩
    · rw [replay_append]
      exact hf

theorem traced_refl {α : Type} (P : Nat × Operation × Action → Prop) (st : State B)
    (o : Outcome E α) (ho : o.isOk = true) : Traced W sheetName P st o st := by
  refine ⟨[], [], by simp, rfl, ?_, by simp, rfl, rfl⟩
  cases o with
  | ok a => trivial
  | error e => simp [Outcome.isOk] at ho
  | panicked => trivial

theorem traced_mono {α : Type} {P Q : Nat × Operation × Action → Prop}
    (hPQ : ∀ x, P x → Q x) {st st1 : State B} {o : Outcome E α}
    (h : Traced W sheetName P st o st1) : Traced W sheetName Q st o st1 := by
  obtain ⟨evs, applied, h1, h2, h3, h4, h5, h6⟩ := h
  exact ⟨evs, applied, h1, h2, h3, fun x hx => hPQ x (h4 x hx), h5, h6⟩

theorem traced_trans {α β : Type} {P : Nat × Operation × Action → Prop} {st st1 st2 : State B}
    {o1 : Outcome E α} {o2 : Outcome E β}
    (h1 : Traced W sheetName P st o1 st1) (ho1 : o1.isOk = true)
    (h2 : Traced W sheetName P st1 o2 st2) : Traced W sheetName P st o2 st2 := by
  obtain ⟨e1, a1, p1, p2, p3, p4, p5, p6⟩ := h1
  obtain ⟨e2, a2, q1, q2, q3, q4, q5, q6⟩ := h2
  have hok1 : callsOk W sheetName st.book e1 := by
    cases o1 with
    | ok a => exact p3
    | error e => simp [Outcome.isOk] at ho1
    | panicked => simp [Outcome.isOk] at ho1
  refine ⟨e1 ++ e2, a1 ++ a2, by rw [q1, p1, List.append_assoc], ?_, ?_, ?_, ?_, ?_⟩
  · rw [replay_append, ← p2, q2]
  · apply endsWith_append W sheetName st.book e1 e2 o2 hok1
    rw [← p2]
    exact q3
  · intro x hx
    rcases List.mem_append.1 hx with h | h
    · exact p4 x h
    · exact q4 x h
  · rw [okWrites_append, ← p2, p5, q5, List.map_append]
  · rw [infosOf_append, p6, q6, List.map_append]

/-- A run seen with another outcome that is not an error either, or is the
same error. -/
theorem traced_outcome {α β : Type} {P : Nat × Operation × Action → Prop} {st st1 : State B}
    (o1 : Outcome E α) (o2 : Outcome E β)
    (ho : ∀ evs, endsWith W sheetName st.book evs o1 → endsWith W sheetName st.book evs o2)
    (h : Traced W sheetName P st o1 st1) : Traced W sheetName P st o2 st1 := by
  obtain ⟨evs, applied, h1, h2, h3, h4, h5, h6⟩ := h
  exact ⟨evs, applied, h1, h2, ho evs h3, h4, h5, h6⟩

theorem traced_read_ok {α : Type} (P : Nat × Operation × Action → Prop) (st : State B)
    (a t : String) (o : Outcome E α) (ho : ∀ e, o ≠ .error e)
    (hget : W.getCellValue st.book sheetName a = .ok t) :
    Traced W sheetName P st o (st.log (.getCell a)) := by
  refine ⟨[.getCell a], [], rfl, rfl, ?_, by simp, rfl, rfl⟩
  have hok : callsOk W sheetName st.book [.getCell a] := ⟨⟨t, hget⟩, trivial⟩
  cases o with
  | ok x => exact hok
  | error e => exact absurd rfl (ho e)
  | panicked => exact hok

theorem traced_read_error {α : Type} (P : Nat × Operation × Action → Prop) (st : State B)
    (a : String) (e : E) (hget : W.getCellValue st.book sheetName a = .error e) :
    Traced W sheetName P st (Outcome.error e : Outcome E α) (st.log (.getCell a)) :=
  ⟨[.getCell a], [], rfl, rfl, ⟨[], .getCell a, rfl, trivial, hget⟩, by simp, rfl, rfl⟩

theorem matchFilters_traced (row opIdx : Nat) (P : Nat × Operation × Action → Prop)
    (fs : List Filter) (j : Nat) (st : State B) :
    Traced W sheetName P st (matchFilters W RE m sheetName row opIdx j fs st).1
      (matchFilters W RE m sheetName row opIdx j fs st).2 := by
  induction fs generalizing j st with
  | nil => exact traced_refl W sheetName P st _ rfl
  | cons f fs ih =>
    simp only [matchFilters]
    cases hget : W.getCellValue st.book sheetName (f.column ++ itoa row) with
    | error e => exact traced_read_error W sheetName P st _ e hget
    | ok t =>
      simp only
      cases m (cacheKey opIdx j) with
      | none => exact traced_read_ok W sheetName P st _ t _ (by simp) hget
      | some re =>
        simp only
        split
        · exact traced_read_ok W sheetName P st _ t _ (by simp) hget
        · exact traced_trans W sheetName
            (traced_read_ok W sheetName P st _ t (Outcome.ok true) (by simp) hget) rfl
            (ih (j + 1) _)

theorem applyActions_traced (row : Nat) (op : Operation) (P : Nat × Operation × Action → Prop)
    (as : List Action) (hP : ∀ x ∈ as, P (row, op, x)) (st : State B) :
    Traced W sheetName P st (applyActions W sheetName row op.name as st).1
      (applyActions W sheetName row op.name as st).2 := by
  induction as generalizing st with
  | nil => exact traced_refl W sheetName P st _ rfl
  | cons x as ih =>
    simp only [applyActions]
    cases hset : W.setCellValue st.book sheetName (x.column ++ itoa row) x.value with
    | error e =>
      refine ⟨[.setCell (x.column ++ itoa row) x.value], [], rfl, ?_,
        ⟨[], .setCell (x.column ++ itoa row) x.value, rfl, trivial, hset⟩, by simp, ?_, rfl⟩
      · simp [replay, writeStep, hset, State.log]
      · simp [okWrites, hset]
    | ok b1 =>
      simp only
      have hstep : Traced W sheetName P st (Outcome.ok () : Outcome E Unit)
          ((State.mk b1 (st.log (.setCell (x.column ++ itoa row) x.value)).trace).log
            (.info row op.name (x.column ++ itoa row ++ " -> " ++ x.value))) := by
        refine ⟨[.setCell (x.column ++ itoa row) x.value,
          .info row op.name (x.column ++ itoa row ++ " -> " ++ x.value)], [(row, op, x)],
          ?_, ?_, ?_, ?_, ?_, ?_⟩
        · simp [State.log]
        · simp [replay, writeStep, hset, State.log]
        · exact ⟨⟨b1, hset⟩, trivial, trivial⟩
        · intro y hy
          simp only [List.mem_singleton] at hy
          subst hy
          exact hP x (by simp)
        · simp [okWrites, hset, writeOfApplied]
        · simp [infosOf, infoOfApplied]
      exact traced_trans W sheetName hstep rfl (ih (fun y hy => hP y (by simp [hy])) _)

/-- A full account of the body of the loop over operations: the actions it
applies are actions of the operation, at the row. -/
theorem processOp_traced (row opIdx : Nat) (op : Operation) (st : State B) :
    Traced W sheetName (fun x => x.1 = row ∧ x.2.1 = op ∧ x.2.2 ∈ op.actions) st
      (processOp W RE m sheetName row opIdx op st).1
      (processOp W RE m sheetName row opIdx op st).2 := by
  have hf := matchFilters_traced W RE m sheetName row opIdx
    (fun x => x.1 = row ∧ x.2.1 = op ∧ x.2.2 ∈ op.actions) op.filters 0 st
  simp only [processOp]
  rcases hmf : matchFilters W RE m sheetName row opIdx 0 op.filters st with ⟨o, st1⟩
  rw [hmf] at hf
  cases o with
  | ok b =>
    cases b with
    | true =>
      simp only
      exact traced_trans W sheetName hf rfl
        (applyActions_traced W sheetName row op _ op.actions (fun x hx => ⟨rfl, rfl, hx⟩) st1)
    | false => exact traced_outcome W sheetName (Outcome.ok false) _ (fun _ h => h) hf
  | error e =>
    exact traced_outcome W sheetName (Outcome.error e : Outcome E Bool) _ (fun _ h => h) hf
  | panicked =>
    exact traced_outcome W sheetName (Outcome.panicked : Outcome E Bool) _ (fun _ h => h) hf

theorem processOps_traced (row : Nat) (ops : List Operation) (i : Nat) (st : State B) :
    Traced W sheetName (fun x => x.1 = row ∧ x.2.1 ∈ ops ∧ x.2.2 ∈ x.2.1.actions) st
      (processOps W RE m sheetName row i ops st).1
      (processOps W RE m sheetName row i ops st).2 := by
  induction ops generalizing i st with
  | nil => exact traced_refl W sheetName _ st _ rfl
  | cons op rest ih =>
    have h1 : Traced W sheetName
        (fun x => x.1 = row ∧ x.2.1 ∈ op :: rest ∧ x.2.2 ∈ x.2.1.actions) st _ _ :=
      traced_mono W sheetName
        (fun x hx => ⟨hx.1, by rw [hx.2.1]; simp, by rw [hx.2.1]; exact hx.2.2⟩)
        (processOp_traced W RE m sheetName row i op st)
    simp only [processOps]
    rcases hp : processOp W RE m sheetName row i op st with ⟨o, st1⟩
    rw [hp] at h1
    cases o with
    | ok u =>
      cases u
      simp only
      exact traced_trans W sheetName h1 rfl
        (traced_mono W sheetName (fun x hx => ⟨hx.1, by simp [hx.2.1], hx.2.2⟩)
          (ih (i + 1) st1))
    | error e => exact h1
    | panicked => exact h1

theorem processRows_traced (ops : List Operation) (rows : List Nat) (st : State B) :
    Traced W sheetName (fun x => x.1 ∈ rows ∧ x.2.1 ∈ ops ∧ x.2.2 ∈ x.2.1.actions) st
      (processRows W RE m sheetName ops rows st).1
      (processRows W RE m sheetName ops rows st).2 := by
  induction rows generalizing st with
  | nil => exact traced_refl W sheetName _ st _ rfl
  | cons row rest ih =>
    have h1 : Traced W sheetName
        (fun x => x.1 ∈ row :: rest ∧ x.2.1 ∈ ops ∧ x.2.2 ∈ x.2.1.actions) st _ _ :=
      traced_mono W sheetName (fun x hx => ⟨by simp [hx.1], hx.2⟩)
        (processOps_traced W RE m sheetName row ops 0 st)
    simp only [processRows]
    rcases hp : processOps W RE m sheetName row 0 ops st with ⟨o, st1⟩
    rw [hp] at h1
    cases o with
    | ok u =>
      cases u
      simp only
      exact traced_trans W sheetName h1 rfl
        (traced_mono W sheetName (fun x hx => ⟨by simp [hx.1], hx.2⟩) (ih st1))
    | error e => exact h1
    | panicked => exact h1

/-- A call that fails leaves the book as it is. -/
theorem writeStep_of_fails (b : B) (e : E) (ev : Event)
    (h : callFails W sheetName b e ev) : writeStep W sheetName b ev = b := by
  cases ev with
  | getCell a => rfl
  | info r n s => rfl
  | setCell a v =>
    simp only [callFails] at h
    simp only [writeStep, h]

/-- A full account of a call of `process` whose row enumeration succeeds. -/
theorem process_traced (cfg : Config) (st : State B) (rows : List (List String))
    (hrows : W.getRows st.book sheetName = .ok rows) :
    Traced W sheetName
      (fun x => x.1 ∈ dataRows rows.length ∧ x.2.1 ∈ cfg.operations ∧ x.2.2 ∈ x.2.1.actions) st
      (process W RE m sheetName cfg st).1 (process W RE m sheetName cfg st).2 := by
  simp only [process, hrows]
  exact processRows_traced W RE m sheetName cfg.operations (dataRows rows.length) st

end TracedRuns

section Frame

variable {B E R : Type} (W : Workbook B E) (RE : Regexp R) (m : Cache R) (sheetName : String)

/-- What a call of `process` did, with the rows counted by `rowCount`. -/
theorem process_ran_rowCount (cfg : Config) (st : State B) :
    Ran W sheetName (EventIn (dataRows (rowCount W sheetName st.book)) cfg.operations) st
      (process W RE m sheetName cfg st).1 (process W RE m sheetName cfg st).2 := by
  apply process_ran
  intro rows hrows
  simp [rowCount, hrows]

theorem writeTarget_of_eventIn (cfg : Config) (n : Nat) (a v : String)
    (h : EventIn (dataRows n) cfg.operations (.setCell a v)) : WriteTarget cfg n a := by
  obtain ⟨r, hr, op, hop, x, hx, ha, -⟩ := h
  have := (mem_dataRows n r).1 hr
  exact ⟨op, hop, x, hx, r, this.1, this.2, ha⟩

end Frame

/-! ## The result of the loop over actions -/

section ActionResult

variable {B E R : Type} (W : Workbook B E) (RE : Regexp R) (m : Cache R) (sheetName : String)

/-- When every write succeeds, the loop over actions returns normally, with
the book the writes yield and the write and the log line of every action. -/
theorem applyActions_of_writesOk (row : Nat) (name : String) (as : List Action) (st : State B)
    (hok : writesOk W sheetName st.book (actionEvents row name as)) :
    applyActions W sheetName row name as st =
      (.ok (), ⟨replay W sheetName st.book (actionEvents row name as),
        st.trace ++ actionEvents row name as⟩) := by
  induction as generalizing st with
  | nil => simp [applyActions, actionEvents, replay]
  | cons x as ih =>
    obtain ⟨⟨b1, hset⟩, -, hrest⟩ := hok
    have hb : writeStep W sheetName (writeStep W sheetName st.book
        (.setCell (x.column ++ itoa row) x.value))
        (.info row name (x.column ++ itoa row ++ " -> " ++ x.value)) = b1 := by
      simp only [writeStep, hset]
    rw [hb] at hrest
    simp only [applyActions, hset]
    rw [ih _ (by simpa [State.log] using hrest)]
    simp [State.log, actionEvents, replay, writeStep, hset]

/-- When the writes of the actions before `x` succeed and the write of `x`
fails, the loop over actions returns the error of that write, with the book
the earlier writes yield; the failing write is the last call, without a log
line. -/
theorem applyActions_of_fail (row : Nat) (name : String) (pre post : List Action) (x : Action)
    (e : E) (st : State B)
    (hok : writesOk W sheetName st.book (actionEvents row name pre))
    (hfail : W.setCellValue (replay W sheetName st.book (actionEvents row name pre)) sheetName
      (x.column ++ itoa row) x.value = .error e) :
    applyActions W sheetName row name (pre ++ x :: post) st =
      (.error e, ⟨replay W sheetName st.book (actionEvents row name pre),
        st.trace ++ (actionEvents row name pre ++ [.setCell (x.column ++ itoa row) x.value])⟩) := by
  induction pre generalizing st with
  | nil =>
    simp only [actionEvents, replay, List.foldl_nil] at hfail
    simp [applyActions, hfail, actionEvents, replay, State.log]
  | cons y pre ih =>
    obtain ⟨⟨b1, hset⟩, -, hrest⟩ := hok
    have hb : writeStep W sheetName (writeStep W sheetName st.book
        (.setCell (y.column ++ itoa row) y.value))
        (.info row name (y.column ++ itoa row ++ " -> " ++ y.value)) = b1 := by
      simp only [writeStep, hset]
    rw [hb] at hrest
    have hrep : replay W sheetName st.book (actionEvents row name (y :: pre)) =
        replay W sheetName b1 (actionEvents row name pre) := by
      simp [actionEvents, replay, writeStep, hset]
    rw [hrep] at hfail ⊢
    simp only [List.cons_append, applyActions, hset]
    rw [show pre.append (x :: post) = pre ++ x :: post from rfl,
      ih ((State.mk b1 (st.log (.setCell (y.column ++ itoa row) y.value)).trace).log
        (.info row name (y.column ++ itoa row ++ " -> " ++ y.value))) hrest hfail]
    simp [State.log, actionEvents]

/-- One turn of the loop over filters: with the pattern of the filter in the
cache, the text read decides `matched`. -/
theorem matchFilters_single (row i j : Nat) (f : Filter) (re : R) (t : String) (st : State B)
    (hm : m (cacheKey i j) = some re)
    (hget : W.getCellValue st.book sheetName (f.column ++ itoa row) = .ok t) :
    matchFilters W RE m sheetName row i j [f] st =
      (.ok (RE.matchString re t), st.log (.getCell (f.column ++ itoa row))) := by
  simp only [matchFilters, hget, hm]
  cases RE.matchString re t <;> simp

theorem filtersMatch_false_of_mem (b : B) (row : Nat) (fs : List Filter) (f : Filter)
    (hf : f ∈ fs) (h : filterMatches W RE sheetName b row f = false) :
    filtersMatch W RE sheetName b row fs = false := by
  simp only [filtersMatch, List.all_eq_false]
  exact ⟨f, hf, by simp [h]⟩

end ActionResult

/-! ## Claims -/

/-- C1. End-to-end single rule: for a lawful workbook and a configuration of
one operation with one filter (column A, pattern `p`) and one action (column B,
value `v`) that `validate` accepts, after a successful `process` every data row
`r` with `2 ≤ r ≤ len(rows)` has in cell B`r` the value `v` when `p` matches
the text of cell A`r`, and its previous value when `p` does not match. -/
theorem single_rule_end_to_end {B E R : Type} (W : Workbook B E) (RE : Regexp R)
    (sheetName : String) (hW : Lawful W sheetName) (name p v : String) (m0 m : Cache R)
    (st st1 : State B) (rows : List (List String))
    (hval : validate RE (some (singleRule name p v)) m0 = (.ok (), m))
    (hrows : W.getRows st.book sheetName = .ok rows)
    (hproc : process W RE m sheetName (singleRule name p v) st = (.ok (), st1))
    (r : Nat) (h2 : 2 ≤ r) (hr : r ≤ rows.length) :
    ∃ re t, RE.compile p = some re ∧
      W.getCellValue st.book sheetName ("A" ++ itoa r) = .ok t ∧
      W.getCellValue st1.book sheetName ("B" ++ itoa r) =
        if RE.matchString re t = true then .ok v
        else W.getCellValue st.book sheetName ("B" ++ itoa r) := by
  obtain ⟨re, hre, hm⟩ := validate_ok_cache RE (singleRule name p v) m0 m hval 0
    ⟨name, [⟨"A", p⟩], [⟨"B", v⟩]⟩ rfl 0 ⟨"A", p⟩ rfl
  simp only [process, hrows] at hproc
  obtain ⟨-, -, hR⟩ := singleRule_rows W RE m sheetName hW name p v re hm
    (dataRows rows.length) (nodup_dataRows _)
    (fun r hr => by have := (mem_dataRows _ _).1 hr; omega) st st1 hproc
  obtain ⟨t, ht, hv⟩ := hR r ((mem_dataRows _ _).2 ⟨h2, hr⟩)
  exact ⟨re, t, hre, ht, hv⟩

/-- The end-to-end example of C1, at row 2: filter (A, "^x"), action
(B, "yes"), "xyz" in A2. -/
theorem single_rule_end_to_end_witness :
    ∃ re t, literalRegexp.compile "^x" = some re ∧
      memWorkbook.getCellValue exampleBook "Sheet1" ("A" ++ itoa 2) = .ok t ∧
      memWorkbook.getCellValue
          (process memWorkbook literalRegexp
            (validate literalRegexp (some (singleRule "rule" "^x" "yes")) Cache.empty).2
            "Sheet1" (singleRule "rule" "^x" "yes") ⟨exampleBook, []⟩).2.book
          "Sheet1" ("B" ++ itoa 2) =
        if literalRegexp.matchString re t = true then .ok "yes"
        else memWorkbook.getCellValue exampleBook "Sheet1" ("B" ++ itoa 2) :=
  single_rule_end_to_end memWorkbook literalRegexp "Sheet1" (memWorkbook_lawful "Sheet1")
    "rule" "^x" "yes" Cache.empty _ ⟨exampleBook, []⟩ _ exampleBook.rows
    (Prod.ext (by decide) rfl) rfl (Prod.ext (by decide) rfl) 2 (by decide) (by decide)

/-- The end-to-end example evaluated: after `process`, B2 holds "yes" and B3
holds what it held before, and the run made these calls. -/
theorem single_rule_example :
    exampleRun.1 = .ok () ∧
    exampleRun.2.book.cell (['B'], 2) = "yes" ∧
    exampleRun.2.book.cell (['B'], 3) = exampleBook.cell (['B'], 3) ∧
    exampleRun.2.trace = [.getCell "A2", .setCell "B2" "yes", .info 2 "rule" "B2 -> yes",
      .getCell "A3"] := by
  decide

/-- C2. Conjunction of filters: under a validated configuration, the body of
the loop over operations applies the actions of the operation at the row
exactly when every filter of the operation has its compiled pattern match the
text of the cell at the filter column and the row, in the book as it stands
when the operation is evaluated. When every filter matches, the body is the
loop over the actions run after the reads of all the filters: if every write
succeeds it returns normally, having made, in declared order, the write and
the log line of every action, and leaves the book these writes yield; if the
write of an action fails it returns that error after the writes of the actions
before it. When some filter does not match, the body makes no write, leaves
the book as it is and does not panic. -/
theorem filters_conjunction {B E R : Type} (W : Workbook B E) (RE : Regexp R)
    (sheetName : String) (cfg : Config) (m0 m : Cache R)
    (hval : validate RE (some cfg) m0 = (.ok (), m))
    (i : Nat) (op : Operation) (hop : cfg.operations[i]? = some op)
    (row : Nat) (st : State B) :
    (filtersMatch W RE sheetName st.book row op.filters = true →
      processOp W RE m sheetName row i op st =
        applyActions W sheetName row op.name op.actions
          ⟨st.book, st.trace ++ filterReads row op.filters⟩ ∧
      writesOf (actionEvents row op.name op.actions) =
        op.actions.map (fun x => (x.column ++ itoa row, x.value)) ∧
      (writesOk W sheetName st.book (actionEvents row op.name op.actions) →
        processOp W RE m sheetName row i op st =
          (.ok (), ⟨replay W sheetName st.book (actionEvents row op.name op.actions),
            st.trace ++ filterReads row op.filters ++ actionEvents row op.name op.actions⟩)) ∧
      (∀ (e : E) (pre post : List Action) (x : Action), op.actions = pre ++ x :: post →
        writesOk W sheetName st.book (actionEvents row op.name pre) →
        W.setCellValue (replay W sheetName st.book (actionEvents row op.name pre)) sheetName
          (x.column ++ itoa row) x.value = .error e →
        processOp W RE m sheetName row i op st =
          (.error e, ⟨replay W sheetName st.book (actionEvents row op.name pre),
            st.trace ++ filterReads row op.filters ++
              (actionEvents row op.name pre ++ [.setCell (x.column ++ itoa row) x.value])⟩))) ∧
    (filtersMatch W RE sheetName st.book row op.filters = false →
      (processOp W RE m sheetName row i op st).1 ≠ .panicked ∧
      (processOp W RE m sheetName row i op st).2.book = st.book ∧
      ∃ evs, (processOp W RE m sheetName row i op st).2.trace = st.trace ++ evs ∧
        writesOf evs = []) := by
  have hc := validate_ok_cache RE cfg m0 m hval i op hop
  have hc0 : ∀ k f, op.filters[k]? = some f →
      ∃ re, RE.compile f.value = some re ∧ m (cacheKey i (0 + k)) = some re := by
    intro k f hk
    rw [Nat.zero_add]
    exact hc k f hk
  constructor
  · intro hall
    have hbody : processOp W RE m sheetName row i op st =
        applyActions W sheetName row op.name op.actions
          ⟨st.book, st.trace ++ filterReads row op.filters⟩ := by
      simp only [processOp, matchFilters_all W RE m sheetName row i op.filters 0 st hc0 hall]
    refine ⟨hbody, writesOf_actionEvents _ _ _, ?_, ?_⟩
    · intro hok
      rw [hbody, applyActions_of_writesOk W sheetName row op.name op.actions
        (State.mk st.book (st.trace ++ filterReads row op.filters)) hok]
    · intro e pre post x hact hok hfail
      rw [hbody, hact, applyActions_of_fail W sheetName row op.name pre post x e
        (State.mk st.book (st.trace ++ filterReads row op.filters)) hok hfail]
  · intro hall
    obtain ⟨o, evs, h1, h2, h3, h4⟩ :=
      matchFilters_some W RE m sheetName row i op.filters 0 st hc0 hall
    simp only [processOp, h1]
    cases o with
    | ok b =>
      cases b with
      | true => exact absurd rfl h2
      | false => exact ⟨by simp, rfl, evs, rfl, h4⟩
    | error e => exact ⟨by simp, rfl, evs, rfl, h4⟩
    | panicked => exact absurd rfl h3

/-- The conjunction of filters at the end-to-end example, row 2: the filter
matches, the write of the action succeeds, and the body returns normally with
the read of A2, the write of "yes" to B2 and its log line. -/
theorem filters_conjunction_witness :
    processOp memWorkbook literalRegexp
        (validate literalRegexp (some (singleRule "rule" "^x" "yes")) Cache.empty).2
        "Sheet1" 2 0 ⟨"rule", [⟨"A", "^x"⟩], [⟨"B", "yes"⟩]⟩ ⟨exampleBook, []⟩ =
      (.ok (), ⟨replay memWorkbook "Sheet1" exampleBook
          (actionEvents 2 "rule" [⟨"B", "yes"⟩]),
        [] ++ filterReads 2 [⟨"A", "^x"⟩] ++ actionEvents 2 "rule" [⟨"B", "yes"⟩]⟩) :=
  ((filters_conjunction memWorkbook literalRegexp "Sheet1" (singleRule "rule" "^x" "yes")
    Cache.empty _ (Prod.ext (by decide) rfl) 0 ⟨"rule", [⟨"A", "^x"⟩], [⟨"B", "yes"⟩]⟩ rfl 2
    ⟨exampleBook, []⟩).1 (by decide)).2.2.1 ⟨⟨_, rfl⟩, trivial, trivial⟩

/-- C3. Vacuous match: an operation with zero filters is treated as matched at
every row without any cell read: the body of the loop is the loop over its
actions; when that loop returns normally the calls made are the write and the
log line of each action, none of them a read; and after a successful
`process` the write of each of its actions has been made at every data row
`r` with `2 ≤ r ≤ len(rows)`, the last row included. -/
theorem vacuous_match {B E R : Type} (W : Workbook B E) (RE : Regexp R) (m : Cache R)
    (sheetName : String) (op : Operation) (hnil : op.filters = []) :
    (∀ (row i : Nat) (st : State B),
      processOp W RE m sheetName row i op st =
        applyActions W sheetName row op.name op.actions st) ∧
    (∀ (row i : Nat) (st st1 : State B),
      processOp W RE m sheetName row i op st = (.ok (), st1) →
        st1.trace = st.trace ++ actionEvents row op.name op.actions ∧
        readsOf (actionEvents row op.name op.actions) = [] ∧
        writesOf (actionEvents row op.name op.actions) =
          op.actions.map (fun x => (x.column ++ itoa row, x.value))) ∧
    (∀ (cfg : Config) (st st1 : State B) (rows : List (List String)),
      op ∈ cfg.operations → W.getRows st.book sheetName = .ok rows →
      process W RE m sheetName cfg st = (.ok (), st1) →
      ∀ r, 2 ≤ r → r ≤ rows.length → ∀ x ∈ op.actions,
        Event.setCell (x.column ++ itoa r) x.value ∈ st1.trace) := by
  refine ⟨fun row i st => processOp_no_filters W RE m sheetName row i op hnil st, ?_, ?_⟩
  · intro row i st st1 h
    rw [processOp_no_filters W RE m sheetName row i op hnil] at h
    exact ⟨applyActions_ok_trace W sheetName row op.name op.actions st st1 h,
      readsOf_actionEvents _ _ _, writesOf_actionEvents _ _ _⟩
  · intro cfg st st1 rows hop hrows hproc r h2 hr x hx
    simp only [process, hrows] at hproc
    exact processRows_no_filters_mem W RE m sheetName cfg.operations _ st st1 hproc op hop hnil
      x hx r ((mem_dataRows _ _).2 ⟨h2, hr⟩)

/-- The vacuous match on the workbook of the end-to-end example: an operation
without filters writes its value at rows 2 and 3. -/
theorem vacuous_match_witness :
    Event.setCell ("B" ++ itoa 3) "all" ∈
      (process memWorkbook literalRegexp Cache.empty "Sheet1" ⟨[⟨"fill", [], [⟨"B", "all"⟩]⟩]⟩
        ⟨exampleBook, []⟩).2.trace :=
  (vacuous_match memWorkbook literalRegexp Cache.empty "Sheet1" ⟨"fill", [], [⟨"B", "all"⟩]⟩
    rfl).2.2 ⟨[⟨"fill", [], [⟨"B", "all"⟩]⟩]⟩ ⟨exampleBook, []⟩ _ exampleBook.rows
    (by decide) rfl (Prod.ext (by decide) rfl) 3 (by decide) (by decide) ⟨"B", "all"⟩ (by decide)

/-- C4, as stated, fails: in `threeWriters` the first two operations both
match row 2 and both have an action on column C, the later of the two writing
"second", and after a successful `process` the cell C2 holds "third". -/
theorem last_writer_counterexample :
    (validate literalRegexp (some threeWriters) Cache.empty).1 = .ok () ∧
    threeWritersRun.1 = .ok () ∧
    threeWriters.operations[0]? = some ⟨"one", [⟨"A", "^x"⟩], [⟨"C", "first"⟩]⟩ ∧
    threeWriters.operations[1]? = some ⟨"two", [⟨"A", "^x"⟩], [⟨"C", "second"⟩]⟩ ∧
    filtersMatch memWorkbook literalRegexp "Sheet1" exampleBook 2 [⟨"A", "^x"⟩] = true ∧
    filtersMatch memWorkbook literalRegexp "Sheet1" threeWritersRun.2.book 2 [⟨"A", "^x"⟩] = true ∧
    memWorkbook.getCellValue threeWritersRun.2.book "Sheet1" ("C" ++ itoa 2) = .ok "third" ∧
    memWorkbook.getCellValue threeWritersRun.2.book "Sheet1" ("C" ++ itoa 2) ≠ .ok "second" := by
  decide

/-- C4, amended. Last writer wins: for a lawful workbook, after a successful
`process` a cell holds the value of the last write, in the order of the calls
(rows ascending, operations in declared order, actions in declared order),
whose address denotes the cell: if the calls made are `e1`, then a write of `v`
to an address denoting the cell `c`, then `e2` without a write to an address
denoting `c`, every address denoting `c` reads `v`. -/
theorem last_write_wins {B E R : Type} (W : Workbook B E) (RE : Regexp R) (m : Cache R)
    (sheetName : String) (hW : Lawful W sheetName) (cfg : Config) (st st1 : State B)
    (hproc : process W RE m sheetName cfg st = (.ok (), st1))
    (e1 e2 : List Event) (a1 v : String) (c : List Char × Nat)
    (htrace : st1.trace = st.trace ++ (e1 ++ Event.setCell a1 v :: e2))
    (ha1 : cellOf a1 = some c)
    (hlast : ∀ a2 v2, Event.setCell a2 v2 ∈ e2 → cellOf a2 ≠ some c)
    (a : String) (ha : cellOf a = some c) :
    W.getCellValue st1.book sheetName a = .ok v := by
  cases hrows : W.getRows st.book sheetName with
  | error e => simp [process, hrows] at hproc
  | ok rows =>
    have hran := process_ran W RE m sheetName cfg st rows.length
      (fun rs hrs => by rw [hrows] at hrs; cases hrs; rfl)
    rw [hproc] at hran
    obtain ⟨evs, h1, -, h3, h4⟩ := hran
    have hev : evs = e1 ++ Event.setCell a1 v :: e2 :=
      List.append_cancel_left (h1.symm.trans htrace)
    subst hev
    rw [h3]
    exact get_replay_last W sheetName hW e1 e2 st.book a1 v a c (h4 rfl) ha1 ha hlast

/-- The second end-to-end example: both operations match row 2 and write C2,
and C2 ends with the value of the operation declared later. -/
theorem last_write_wins_witness :
    memWorkbook.getCellValue twoWritersRun.2.book "Sheet1" "C2" = .ok "second" :=
  last_write_wins memWorkbook literalRegexp
    (validate literalRegexp (some twoWriters) Cache.empty).2 "Sheet1"
    (memWorkbook_lawful "Sheet1") twoWriters ⟨exampleBook, []⟩ twoWritersRun.2
    (Prod.ext (by decide) rfl)
    [.getCell "A2", .setCell "C2" "first", .info 2 "one" "C2 -> first", .getCell "A2"]
    [.info 2 "two" "C2 -> second", .getCell "A3", .getCell "A3"] "C2" "second" (['C'], 2)
    (by decide) (by decide) (fun a2 v2 h => by simp at h) "C2" (by decide)

/-- C5. Evaluation order: rows are processed one after the other, each from
the state the rows before it leave; within a row the operation `op` that
follows the operations `pre` is evaluated from the state `st1` that `pre`
leaves, with their actions written; and, for a lawful workbook and a validated
configuration, when the calls of `pre` end with a write of `v` to the cell
that the filter `f` of `op` reads, the read returns `v`, the turn of the loop
over filters for `f` sets `matched` to the match of its pattern on `v`, the
body of `op` writes nothing when the pattern does not match `v`, and it is the
loop over the actions when the pattern matches `v` and the other filters
match. -/
theorem evaluation_order {B E R : Type} (W : Workbook B E) (RE : Regexp R) (m0 m : Cache R)
    (sheetName : String) (hW : Lawful W sheetName) (cfg : Config)
    (hval : validate RE (some cfg) m0 = (.ok (), m))
    (pre post : List Operation) (op : Operation) (hcfg : cfg.operations = pre ++ op :: post)
    (row : Nat) (st st1 : State B)
    (hpre : processOps W RE m sheetName row 0 pre st = (.ok (), st1))
    (e1 e2 : List Event) (a1 v : String) (c : List Char × Nat)
    (htrace : st1.trace = st.trace ++ (e1 ++ Event.setCell a1 v :: e2))
    (ha1 : cellOf a1 = some c)
    (hlast : ∀ a2 v2, Event.setCell a2 v2 ∈ e2 → cellOf a2 ≠ some c)
    (j : Nat) (f : Filter) (hj : op.filters[j]? = some f)
    (hfc : cellOf (f.column ++ itoa row) = some c) :
    (∀ (rs1 rs2 : List Nat) (st0 : State B),
      processRows W RE m sheetName cfg.operations (rs1 ++ rs2) st0 =
        match processRows W RE m sheetName cfg.operations rs1 st0 with
        | (.ok (), st2) => processRows W RE m sheetName cfg.operations rs2 st2
        | r => r) ∧
    processOps W RE m sheetName row 0 cfg.operations st =
      (match processOp W RE m sheetName row pre.length op st1 with
        | (.ok (), st2) => processOps W RE m sheetName row (pre.length + 1) post st2
        | r => r) ∧
    W.getCellValue st1.book sheetName (f.column ++ itoa row) = .ok v ∧
    filterMatches W RE sheetName st1.book row f =
      (match RE.compile f.value with
        | some re => RE.matchString re v
        | none => false) ∧
    ∃ re, RE.compile f.value = some re ∧
      matchFilters W RE m sheetName row pre.length j [f] st1 =
        (.ok (RE.matchString re v), st1.log (.getCell (f.column ++ itoa row))) ∧
      (RE.matchString re v = false →
        (processOp W RE m sheetName row pre.length op st1).1 ≠ .panicked ∧
        (processOp W RE m sheetName row pre.length op st1).2.book = st1.book ∧
        ∃ evs, (processOp W RE m sheetName row pre.length op st1).2.trace = st1.trace ++ evs ∧
          writesOf evs = []) ∧
      (RE.matchString re v = true →
        (∀ g ∈ op.filters, g ≠ f → filterMatches W RE sheetName st1.book row g = true) →
        processOp W RE m sheetName row pre.length op st1 =
          applyActions W sheetName row op.name op.actions
            ⟨st1.book, st1.trace ++ filterReads row op.filters⟩) := by
  have hget : W.getCellValue st1.book sheetName (f.column ++ itoa row) = .ok v := by
    have hran := processOps_ran W RE m sheetName row pre 0 st
    rw [hpre] at hran
    obtain ⟨evs, h1, -, h3, h4⟩ := hran
    have hev : evs = e1 ++ Event.setCell a1 v :: e2 :=
      List.append_cancel_left (h1.symm.trans htrace)
    subst hev
    rw [h3]
    exact get_replay_last W sheetName hW e1 e2 st.book a1 v _ c (h4 rfl) ha1 hfc hlast
  have hop : cfg.operations[pre.length]? = some op := by
    rw [hcfg, List.getElem?_append_right (Nat.le_refl _)]
    simp
  have hc := validate_ok_cache RE cfg m0 m hval pre.length op hop
  have hc0 : ∀ k g, op.filters[k]? = some g →
      ∃ re, RE.compile g.value = some re ∧ m (cacheKey pre.length (0 + k)) = some re := by
    intro k g hk
    rw [Nat.zero_add]
    exact hc k g hk
  obtain ⟨re, hre, hm⟩ := hc j f hj
  have hfm : filterMatches W RE sheetName st1.book row f = RE.matchString re v := by
    simp only [filterMatches, hget, hre]
  refine ⟨fun rs1 rs2 st0 => processRows_append W RE m sheetName cfg.operations rs1 rs2 st0,
    ?_, hget, ?_, re, hre, ?_, ?_, ?_⟩
  · rw [hcfg, processOps_append, hpre]
    show processOps W RE m sheetName row (0 + pre.length) (op :: post) st1 = _
    rw [Nat.zero_add]
    rcases hp : processOp W RE m sheetName row pre.length op st1 with ⟨o, st2⟩
    cases o with
    | ok u => cases u; simp only [processOps, hp]
    | error e => simp only [processOps, hp]
    | panicked => simp only [processOps, hp]
  · simp only [filterMatches, hget]
    cases RE.compile f.value <;> rfl
  · exact matchFilters_single W RE m sheetName row pre.length j f re v st1 hm hget
  · intro hno
    have hall : filtersMatch W RE sheetName st1.book row op.filters = false :=
      filtersMatch_false_of_mem W RE sheetName st1.book row op.filters f
        (List.getElem?_mem hj) (by rw [hfm]; exact hno)
    obtain ⟨o, evs, h1, h2, h3, h4⟩ :=
      matchFilters_some W RE m sheetName row pre.length op.filters 0 st1 hc0 hall
    simp only [processOp, h1]
    cases o with
    | ok b =>
      cases b with
      | true => exact absurd rfl h2
      | false => exact ⟨by simp, rfl, evs, rfl, h4⟩
    | error e => exact ⟨by simp, rfl, evs, rfl, h4⟩
    | panicked => exact absurd rfl h3
  · intro hyes hothers
    have hall : filtersMatch W RE sheetName st1.book row op.filters = true := by
      simp only [filtersMatch, List.all_eq_true]
      intro g hg
      by_cases hgf : g = f
      · rw [hgf, hfm]
        exact hyes
      · exact hothers g hg hgf
    simp only [processOp, matchFilters_all W RE m sheetName row pre.length op.filters 0 st1 hc0 hall]

/-- The evaluation order on `chained`, row 2: the first operation writes "x1"
to B2, which held "old"; the read of the filter of the second operation
returns "x1" and the turn of the loop over filters sets `matched` to the match
of its pattern on "x1". -/
theorem evaluation_order_witness :
    memWorkbook.getCellValue chainedAfterMark.book "Sheet1" ("B" ++ itoa 2) = .ok "x1" ∧
    ∃ re, literalRegexp.compile "^x" = some re ∧
      matchFilters memWorkbook literalRegexp (validate literalRegexp (some chained) Cache.empty).2
          "Sheet1" 2 1 0 [⟨"B", "^x"⟩] chainedAfterMark =
        (.ok (literalRegexp.matchString re "x1"),
          chainedAfterMark.log (.getCell ("B" ++ itoa 2))) :=
  have h := evaluation_order memWorkbook literalRegexp Cache.empty
    (validate literalRegexp (some chained) Cache.empty).2 "Sheet1" (memWorkbook_lawful "Sheet1")
    chained (Prod.ext (by decide) rfl)
    [⟨"mark", [], [⟨"B", "x1"⟩]⟩] [] ⟨"follow", [⟨"B", "^x"⟩], [⟨"C", "hit"⟩]⟩ rfl 2
    ⟨exampleBook, []⟩ chainedAfterMark (Prod.ext (by decide) rfl) []
    [.info 2 "mark" "B2 -> x1"] "B2" "x1"
    (['B'], 2) (by decide) (by decide) (fun a2 v2 h => by simp at h) 0 ⟨"B", "^x"⟩ rfl
    (by decide)
  ⟨h.2.2.1, h.2.2.2.2.elim fun re hre => ⟨re, hre.1, hre.2.1⟩⟩

/-- The run of `chained` evaluated: B2 held "old", which the filter "^x" does
not match, and yet the second operation matches at row 2 and writes C2. -/
theorem chained_example :
    exampleBook.cell (['B'], 2) = "old" ∧
    filterMatches memWorkbook literalRegexp "Sheet1" exampleBook 2 ⟨"B", "^x"⟩ = false ∧
    chainedRun.1 = .ok () ∧
    chainedRun.2.book.cell (['C'], 2) = "hit" ∧
    chainedRun.2.trace =
      [.setCell "B2" "x1", .info 2 "mark" "B2 -> x1", .getCell "B2", .setCell "C2" "hit",
        .info 2 "follow" "C2 -> hit", .setCell "B3" "x1", .info 3 "mark" "B3 -> x1",
        .getCell "B3", .setCell "C3" "hit", .info 3 "follow" "C3 -> hit"] := by
  decide

/-- C6. The header row is never matched or mutated: whatever the configuration
and the book, no address that `process` reads or writes denotes a cell of
row 1; for a lawful workbook every address denoting a cell of row 1 reads the
same after `process` as before, whatever the outcome; and on a sheet with at
most one row `process` returns at once, with no read and no write. -/
theorem header_row_untouched {B E R : Type} (W : Workbook B E) (RE : Regexp R) (m : Cache R)
    (sheetName : String) (cfg : Config) (st : State B) :
    (∃ evs, (process W RE m sheetName cfg st).2.trace = st.trace ++ evs ∧
      (∀ a ∈ readsOf evs, rowOf a ≠ some 1) ∧ (∀ w ∈ writesOf evs, rowOf w.1 ≠ some 1)) ∧
    (Lawful W sheetName → ∀ a, rowOf a = some 1 →
      W.getCellValue (process W RE m sheetName cfg st).2.book sheetName a =
        W.getCellValue st.book sheetName a) ∧
    (∀ rows, W.getRows st.book sheetName = .ok rows → rows.length ≤ 1 →
      process W RE m sheetName cfg st = (.ok (), st)) := by
  obtain ⟨n, hn⟩ : ∃ n, ∀ rows, W.getRows st.book sheetName = .ok rows → rows.length = n := by
    cases hrows : W.getRows st.book sheetName with
    | error e => exact ⟨0, fun rows h => by cases h⟩
    | ok rows => exact ⟨rows.length, fun rs h => by cases h; rfl⟩
  obtain ⟨evs, h1, h2, h3, -⟩ := process_ran W RE m sheetName cfg st n hn
  have hrow : ∀ r ∈ dataRows n, 2 ≤ r := fun r hr => ((mem_dataRows n r).1 hr).1
  have hreads : ∀ a, Event.getCell a ∈ evs → rowOf a ≠ some 1 := by
    intro a ha
    obtain ⟨r, hr, op, -, f, -, rfl⟩ := h2 _ ha
    exact rowOf_append_itoa f.column r (hrow r hr)
  have hwrites : ∀ a v, Event.setCell a v ∈ evs → rowOf a ≠ some 1 := by
    intro a v ha
    obtain ⟨r, hr, op, -, x, -, rfl, -⟩ := h2 _ ha
    exact rowOf_append_itoa x.column r (hrow r hr)
  refine ⟨⟨evs, h1, fun a ha => hreads a (mem_readsOf evs a ha),
    fun w hw => hwrites w.1 w.2 (mem_writesOf evs w hw)⟩, ?_, ?_⟩
  · intro hW a ha
    rw [h3]
    apply get_replay_other W sheetName hW
    intro a1 v1 hmem heq
    apply hwrites a1 v1 hmem
    rw [rowOf, ← heq]
    exact ha
  · intro rows hrows hlen
    have : dataRows rows.length = [] := by
      simp only [dataRows, List.range'_eq_nil]
      omega
    simp only [process, hrows, this, processRows]

/-- The header row on `chained`, whose first operation writes column B at every
row: the cell B1 of `exampleBook` reads the same after `process`, and on a
book with the header row only `process` does nothing. -/
theorem header_row_untouched_witness :
    memWorkbook.getCellValue chainedRun.2.book "Sheet1" "B1" =
      memWorkbook.getCellValue exampleBook "Sheet1" "B1" ∧
    process memWorkbook literalRegexp (validate literalRegexp (some chained) Cache.empty).2
      "Sheet1" chained ⟨⟨[["kind", "flag"]], exampleBook.cell⟩, []⟩ =
      (.ok (), ⟨⟨[["kind", "flag"]], exampleBook.cell⟩, []⟩) :=
  ⟨(header_row_untouched memWorkbook literalRegexp
      (validate literalRegexp (some chained) Cache.empty).2 "Sheet1"
      chained ⟨exampleBook, []⟩).2.1 (memWorkbook_lawful "Sheet1") "B1" (by decide),
    (header_row_untouched memWorkbook literalRegexp
      (validate literalRegexp (some chained) Cache.empty).2 "Sheet1"
      chained ⟨⟨[["kind", "flag"]], exampleBook.cell⟩, []⟩).2.2 [["kind", "flag"]] rfl
      (by decide)⟩

/-- C7, as stated, fails: `badPatternFirst` has a filter with an empty column,
and `validate` does not return the empty-column error, nor any error: it
panics on the pattern of the filter checked before. -/
theorem empty_column_counterexample :
    hasEmptyColumn badPatternFirst = true ∧
    (validate literalRegexp (some badPatternFirst) Cache.empty).1 = .panicked ∧
    ∀ e, (validate literalRegexp (some badPatternFirst) Cache.empty).1 ≠ .error e := by
  refine ⟨by decide, by decide, fun e h => ?_⟩
  rw [show (validate literalRegexp (some badPatternFirst) Cache.empty).1 = .panicked by decide] at h
  cases h

/-- C7, amended. For every non-nil configuration, `validate` returns the
error `e` if and only if, in checking order (operations in declared order,
the filters of an operation before its actions), there is a first item with an
empty column, every item checked before it has a column and, if it is a
filter, a value that compiles, and `e` is the empty-column error that names
the position of that first item. -/
theorem empty_column_error {R : Type} (RE : Regexp R) (cfg : Config) (m : Cache R)
    (e : String) :
    (validate RE (some cfg) m).1 = .error e ↔
      ∃ pre x post, items cfg = pre ++ x :: post ∧
        (∀ y ∈ pre, y.column ≠ "" ∧ y.badPattern RE = false) ∧
        x.column = "" ∧ e = x.columnEmpty := by
  rw [validate_error_iff]
  have hpass : ∀ y : Item, y.check RE = none ↔ (y.column ≠ "" ∧ y.badPattern RE = false) := by
    intro y
    simp only [Item.check]
    by_cases hc : y.column = ""
    · simp [hc]
    · cases hb : y.badPattern RE <;> simp [hc]
  constructor
  · rintro ⟨pre, x, post, h1, h2, h3⟩
    exact ⟨pre, x, post, h1, fun y hy => (hpass y).1 (h2 y hy), h3⟩
  · rintro ⟨pre, x, post, h1, h2, h3⟩
    exact ⟨pre, x, post, h1, fun y hy => (hpass y).2 (h2 y hy), h3⟩

/-- C8, as stated, fails: the only filter of `badPatternOnly` has a value that
does not compile, and `validate` returns no error to its caller: it panics. -/
theorem invalid_pattern_counterexample :
    hasBadPattern literalRegexp badPatternOnly = true ∧
    (validate literalRegexp (some badPatternOnly) Cache.empty).1 = .panicked ∧
    ∀ e, (validate literalRegexp (some badPatternOnly) Cache.empty).1 ≠ .error e := by
  refine ⟨by decide, by decide, fun e h => ?_⟩
  rw [show (validate literalRegexp (some badPatternOnly) Cache.empty).1 = .panicked by decide] at h
  cases h

/-- C8, amended. For every configuration, `validate` panics if and only if, in
checking order, the first item that does not pass is a filter with a column
whose value does not compile; and every error that `validate` returns is the
empty-column error of an item with an empty column, never an error about a
pattern. -/
theorem invalid_pattern_panics {R : Type} (RE : Regexp R) (cfg : Config) (m : Cache R) :
    ((validate RE (some cfg) m).1 = .panicked ↔
      ∃ pre x post, items cfg = pre ++ x :: post ∧
        (∀ y ∈ pre, y.column ≠ "" ∧ y.badPattern RE = false) ∧
        x.badPattern RE = true) ∧
    (∀ e, (validate RE (some cfg) m).1 = .error e →
      ∃ x ∈ items cfg, x.column = "" ∧ e = x.columnEmpty) := by
  have hpass : ∀ y : Item, y.check RE = none ↔ (y.column ≠ "" ∧ y.badPattern RE = false) := by
    intro y
    simp only [Item.check]
    by_cases hc : y.column = ""
    · simp [hc]
    · cases hb : y.badPattern RE <;> simp [hc]
  constructor
  · rw [validate_panicked_iff]
    constructor
    · rintro ⟨pre, x, post, h1, h2, h3⟩
      exact ⟨pre, x, post, h1, fun y hy => (hpass y).1 (h2 y hy), h3⟩
    · rintro ⟨pre, x, post, h1, h2, h3⟩
      exact ⟨pre, x, post, h1, fun y hy => (hpass y).2 (h2 y hy), h3⟩
  · intro e he
    obtain ⟨pre, x, post, h1, -, h3, h4⟩ := (validate_error_iff RE cfg m e).1 he
    exact ⟨x, by rw [h1]; simp, h3, h4⟩

/-- C9. Validation stops at the first offending item in checking order
(operations in declared order; within an operation its filters, each checked
for its column and then for its pattern, before its actions): when the items
before `x` pass and `x` does not, the outcome of `validate` is the one of `x`
and the cache holds the patterns of the filters before `x` and nothing of what
follows. -/
theorem first_offence_only {R : Type} (RE : Regexp R) (cfg : Config) (m : Cache R)
    (pre post : List Item) (x : Item) (o : Outcome String Unit)
    (hitems : items cfg = pre ++ x :: post) (hpre : ∀ y ∈ pre, y.check RE = none)
    (hx : x.check RE = some o) :
    validate RE (some cfg) m = (o, storeAll RE pre m) := by
  rw [validate_eq_checkAll, hitems]
  exact checkAll_fail RE pre post x o m hpre hx

/-- The first offence of `manyOffences`: its items are a filter that passes,
an action with an empty column, and two offending filters; `validate` returns
the error of the action and caches the first filter only. -/
theorem first_offence_only_witness :
    validate literalRegexp (some manyOffences) Cache.empty =
      (.error (actionColumnEmpty 0 0),
        storeAll literalRegexp [.filter 0 0 ⟨"A", "x"⟩] Cache.empty) :=
  first_offence_only literalRegexp manyOffences Cache.empty [.filter 0 0 ⟨"A", "x"⟩]
    [.filter 1 0 ⟨"A", "["⟩, .filter 1 1 ⟨"", "y"⟩, .action 1 0 ⟨"B", "w"⟩]
    (.action 0 0 ⟨"", "v"⟩) (.error (actionColumnEmpty 0 0)) (by decide) (by decide) (by decide)

/-- C10. A malformed pattern in any filter makes `validate` fail, so that the
sequence validate-then-process of `main` does not reach `process`: the
outcome of the sequence is not the normal one, and it leaves the book and the
trace as they were, with no cell read or written. -/
theorem malformed_pattern_blocks_process {B E R : Type} (W : Workbook B E) (RE : Regexp R)
    (m0 : Cache R) (sheetName : String) (cfg : Config) (st : State B)
    (hbad : hasBadPattern RE cfg = true) :
    (validate RE (some cfg) m0).1 ≠ .ok () ∧
    (validateThenProcess W RE m0 sheetName cfg st).1 ≠ .ok () ∧
    (validateThenProcess W RE m0 sheetName cfg st).2 = st := by
  have hv := validate_bad_pattern RE cfg m0 hbad
  refine ⟨hv, ?_⟩
  simp only [validateThenProcess]
  rcases hval : validate RE (some cfg) m0 with ⟨o, m1⟩
  rw [hval] at hv
  cases o with
  | ok u => cases u; exact absurd rfl hv
  | error e => exact ⟨by simp, rfl⟩
  | panicked => exact ⟨by simp, rfl⟩

/-- The malformed pattern of `badPatternOnly` (an unbalanced bracket): the
sequence validate-then-process leaves `exampleBook` as it was. -/
theorem malformed_pattern_blocks_process_witness :
    (validate literalRegexp (some badPatternOnly) Cache.empty).1 ≠ .ok () ∧
    (validateThenProcess memWorkbook literalRegexp Cache.empty "Sheet1" badPatternOnly
      ⟨exampleBook, []⟩).1 ≠ .ok () ∧
    (validateThenProcess memWorkbook literalRegexp Cache.empty "Sheet1" badPatternOnly
      ⟨exampleBook, []⟩).2 = ⟨exampleBook, []⟩ :=
  malformed_pattern_blocks_process memWorkbook literalRegexp Cache.empty "Sheet1" badPatternOnly
    ⟨exampleBook, []⟩ (by decide)

/-- C11. Cache completeness: when `validate` succeeds, the cache holds, for
every operation index `i` and filter index `j` of the configuration, the
compiled pattern of that filter under the key of `(i, j)`; and `process` on
that configuration with that cache never panics: none of its lookups yields a
missing entry. -/
theorem cache_complete {R : Type} (RE : Regexp R) (cfg : Config) (m0 m : Cache R)
    (hval : validate RE (some cfg) m0 = (.ok (), m)) :
    (∀ (i j : Nat) (op : Operation) (f : Filter),
      cfg.operations[i]? = some op → op.filters[j]? = some f →
      ∃ re, RE.compile f.value = some re ∧ m (cacheKey i j) = some re) ∧
    (∀ {B E : Type} (W : Workbook B E) (sheetName : String) (st : State B),
      (process W RE m sheetName cfg st).1 ≠ .panicked) := by
  have hc : ∀ k op, cfg.operations[k]? = some op → CacheFor RE m k op :=
    fun k op hk => validate_ok_cache RE cfg m0 m hval k op hk
  exact ⟨fun i j op f hop hf => hc i op hop j f hf,
    fun W sheetName st => process_not_panicked W RE m sheetName cfg st hc⟩

/-- The cache after `validate` on the end-to-end example holds the compiled
pattern of its filter under the key of position (0, 0). -/
theorem cache_complete_witness :
    ∃ re, literalRegexp.compile "^x" = some re ∧
      (validate literalRegexp (some (singleRule "rule" "^x" "yes")) Cache.empty).2
        (cacheKey 0 0) = some re :=
  (cache_complete literalRegexp (singleRule "rule" "^x" "yes") Cache.empty _
    (Prod.ext (by decide) rfl)).1 0 0 ⟨"rule", [⟨"A", "^x"⟩], [⟨"B", "yes"⟩]⟩ ⟨"A", "^x"⟩ rfl rfl

/-- C17. The composite cache key is injective: two positions with the same key
`decimal(i) ++ "_" ++ decimal(j)` are the same position, so a write under the
key of one position leaves the entry of every other position as it was. -/
theorem cache_key_injective (i j i1 j1 : Nat) :
    (cacheKey i j = cacheKey i1 j1 → i = i1 ∧ j = j1) ∧
    ∀ {R : Type} (m : Cache R) (v : R), (i1, j1) ≠ (i, j) →
      (m.set (cacheKey i j) v) (cacheKey i1 j1) = m (cacheKey i1 j1) := by
  refine ⟨fun h => cacheKey_inj h, ?_⟩
  intro R m v hne
  have : cacheKey i1 j1 ≠ cacheKey i j := by
    intro he
    have := cacheKey_inj he
    exact hne (by rw [this.1, this.2])
  simp [Cache.set, this]

/-- The keys of the positions (1, 12) and (11, 2), which the separator keeps
apart: a write under the first leaves the entry of the second as it was. -/
theorem cache_key_injective_witness :
    cacheKey 1 12 = "1_12" ∧ cacheKey 11 2 = "11_2" ∧
    ((Cache.empty : Cache Nat).set (cacheKey 1 12) 7) (cacheKey 11 2) =
      (Cache.empty : Cache Nat) (cacheKey 11 2) :=
  ⟨by decide, by decide, (cache_key_injective 1 12 11 2).2 Cache.empty 7 (by decide)⟩

/-- C13. Short-circuit reads: under a validated configuration, the body of the
loop over operations reads, at a row, the cells of the filters of the operation
from left to right up to the first filter that does not match, and no cell of
a later filter; the number of reads is the index of that filter plus one, or
the number of filters when all match. -/
theorem short_circuit_reads {B E R : Type} (W : Workbook B E) (RE : Regexp R)
    (sheetName : String) (cfg : Config) (m0 m : Cache R)
    (hval : validate RE (some cfg) m0 = (.ok (), m))
    (i : Nat) (op : Operation) (hop : cfg.operations[i]? = some op)
    (row : Nat) (st : State B) :
    ∃ evs, (processOp W RE m sheetName row i op st).2.trace = st.trace ++ evs ∧
      readsOf evs =
        (op.filters.take (readCount W RE sheetName st.book row op.filters)).map
          (fun f => f.column ++ itoa row) ∧
      (readsOf evs).length = readCount W RE sheetName st.book row op.filters := by
  have hc := validate_ok_cache RE cfg m0 m hval i op hop
  have hr := matchFilters_reads W RE m sheetName row i op.filters 0 st
    (fun k f hk => by rw [Nat.zero_add]; exact hc k f hk)
  have hlen : ((op.filters.take (readCount W RE sheetName st.book row op.filters)).map
      (fun f => f.column ++ itoa row)).length =
      readCount W RE sheetName st.book row op.filters := by
    rw [List.length_map, List.length_take]
    exact Nat.min_eq_left (readCount_le W RE sheetName st.book row op.filters)
  simp only [processOp]
  rcases hres : matchFilters W RE m sheetName row i 0 op.filters st with ⟨o, st1⟩
  rw [hres] at hr
  simp only at hr
  subst hr
  have hbase : readsOf (filterReads row
      (op.filters.take (readCount W RE sheetName st.book row op.filters))) =
      (op.filters.take (readCount W RE sheetName st.book row op.filters)).map
        (fun f => f.column ++ itoa row) := readsOf_filterReads _ _
  cases o with
  | ok b =>
    cases b with
    | true =>
      obtain ⟨evs, h1, h2⟩ := applyActions_no_reads W sheetName row op.name op.actions
        ⟨st.book, st.trace ++ filterReads row
          (op.filters.take (readCount W RE sheetName st.book row op.filters))⟩
      refine ⟨filterReads row
        (op.filters.take (readCount W RE sheetName st.book row op.filters)) ++ evs, ?_, ?_, ?_⟩
      · simp only [h1, List.append_assoc]
      · rw [readsOf_append, h2, List.append_nil, hbase]
      · rw [readsOf_append, h2, List.append_nil, hbase, hlen]
    | false => exact ⟨_, rfl, hbase, by rw [hbase, hlen]⟩
  | error e => exact ⟨_, rfl, hbase, by rw [hbase, hlen]⟩
  | panicked => exact ⟨_, rfl, hbase, by rw [hbase, hlen]⟩

/-- The short circuit on `twoFilters` at row 2 of `exampleBook`. -/
theorem short_circuit_reads_witness :
    ∃ evs, (processOp memWorkbook literalRegexp
        (validate literalRegexp (some twoFilters) Cache.empty).2 "Sheet1" 2 0
        ⟨"both", [⟨"A", "^q"⟩, ⟨"B", "^o"⟩], [⟨"C", "hit"⟩]⟩ ⟨exampleBook, []⟩).2.trace =
        [] ++ evs ∧
      readsOf evs =
        (([⟨"A", "^q"⟩, ⟨"B", "^o"⟩] : List Filter).take
          (readCount memWorkbook literalRegexp "Sheet1" exampleBook 2
            [⟨"A", "^q"⟩, ⟨"B", "^o"⟩])).map (fun f => f.column ++ itoa 2) ∧
      (readsOf evs).length =
        readCount memWorkbook literalRegexp "Sheet1" exampleBook 2
          [⟨"A", "^q"⟩, ⟨"B", "^o"⟩] :=
  short_circuit_reads memWorkbook literalRegexp "Sheet1" twoFilters Cache.empty _
    (Prod.ext (by decide) rfl) 0 ⟨"both", [⟨"A", "^q"⟩, ⟨"B", "^o"⟩], [⟨"C", "hit"⟩]⟩ rfl 2
    ⟨exampleBook, []⟩

/-- The short circuit evaluated: at row 2 the first filter of `twoFilters` does
not match, one cell is read and the cell of the second filter is not. -/
theorem short_circuit_example :
    readCount memWorkbook literalRegexp "Sheet1" exampleBook 2
      [⟨"A", "^q"⟩, ⟨"B", "^o"⟩] = 1 ∧
    (processOp memWorkbook literalRegexp
      (validate literalRegexp (some twoFilters) Cache.empty).2 "Sheet1" 2 0
      ⟨"both", [⟨"A", "^q"⟩, ⟨"B", "^o"⟩], [⟨"C", "hit"⟩]⟩ ⟨exampleBook, []⟩).2.trace =
      [.getCell "A2"] := by
  decide

/-- C14, as stated, fails: `validate` accepts `digitColumn`, whose action has
the non-empty column "A1"; at row 2 `process` writes to the address "A12",
which denotes row 12 of column A, and not row 2. -/
theorem write_target_counterexample :
    (validate literalRegexp (some digitColumn) Cache.empty).1 = .ok () ∧
    digitColumnRun.1 = .ok () ∧
    writesOf digitColumnRun.2.trace = [("A12", "v"), ("A13", "v")] ∧
    "A1" ++ itoa 2 = "A12" ∧
    cellOf ("A1" ++ itoa 2) = some (['A'], 12) ∧
    rowOf ("A1" ++ itoa 2) ≠ some 2 := by
  decide

/-- C14, amended. Write target: under a validated configuration, when the
filters of an operation all match at a row and the body of the loop returns
normally, the writes made are, in declared action order, the literal value of
each action at the address made of the action column followed by the decimal
text of the row; no action column is empty; and when the column of an action
is a word of letters and the row is positive, that address denotes that row
and that column (in upper case). -/
theorem write_target {B E R : Type} (W : Workbook B E) (RE : Regexp R)
    (sheetName : String) (cfg : Config) (m0 m : Cache R)
    (hval : validate RE (some cfg) m0 = (.ok (), m))
    (i : Nat) (op : Operation) (hop : cfg.operations[i]? = some op)
    (row : Nat) (st st1 : State B)
    (hmatch : filtersMatch W RE sheetName st.book row op.filters = true)
    (hrun : processOp W RE m sheetName row i op st = (.ok (), st1)) :
    (∃ evs, st1.trace = st.trace ++ evs ∧
      writesOf evs = op.actions.map (fun x => (x.column ++ itoa row, x.value))) ∧
    (∀ x ∈ op.actions, x.column ≠ "") ∧
    (∀ x ∈ op.actions, (∀ c ∈ x.column.data, c.isAlpha = true) → 0 < row →
      cellOf (x.column ++ itoa row) = some (x.column.data.map Char.toUpper, row)) := by
  have hc := validate_ok_cache RE cfg m0 m hval i op hop
  have hcol := validate_ok_action_column RE cfg m0 m hval i op hop
  refine ⟨?_, hcol, ?_⟩
  · have hall := matchFilters_all W RE m sheetName row i op.filters 0 st
      (fun k f hk => by rw [Nat.zero_add]; exact hc k f hk) hmatch
    simp only [processOp, hall] at hrun
    have htr := applyActions_ok_trace W sheetName row op.name op.actions _ st1 hrun
    refine ⟨filterReads row op.filters ++ actionEvents row op.name op.actions, ?_, ?_⟩
    · rw [htr, List.append_assoc]
    · rw [writesOf_append, writesOf_filterReads, List.nil_append, writesOf_actionEvents]
  · intro x hx hal hrow
    have hne : x.column.data ≠ [] := by
      intro h
      exact hcol x hx (String.ext h)
    exact cellOf_letters_itoa x.column row hne hal hrow

/-- The write target on the end-to-end example, row 2: the write of "yes" to
the address "B2", which denotes row 2 of column B. -/
theorem write_target_witness :
    (∃ evs, (processOp memWorkbook literalRegexp
        (validate literalRegexp (some (singleRule "rule" "^x" "yes")) Cache.empty).2 "Sheet1" 2 0
        ⟨"rule", [⟨"A", "^x"⟩], [⟨"B", "yes"⟩]⟩ ⟨exampleBook, []⟩).2.trace = [] ++ evs ∧
      writesOf evs = [("B" ++ itoa 2, "yes")]) ∧
    cellOf ("B" ++ itoa 2) = some (['B'], 2) :=
  have h := write_target memWorkbook literalRegexp "Sheet1" (singleRule "rule" "^x" "yes")
    Cache.empty _ (Prod.ext (by decide) rfl) 0 ⟨"rule", [⟨"A", "^x"⟩], [⟨"B", "yes"⟩]⟩ rfl 2
    ⟨exampleBook, []⟩ _ (by decide) (Prod.ext (by decide) rfl)
  ⟨h.1, h.2.2 ⟨"B", "yes"⟩ (by decide) (by decide) (by decide)⟩

/-- C12. Fail-fast without rollback: a failure of the row enumeration makes
`process` return that error at once, with nothing read or written; when
`process` returns an error, either the row enumeration failed with that error
and nothing was read or written, or the last call made is a cell read or a
cell write that fails with exactly that error, every call before it
succeeded, and the book left is the one produced by the calls before the
failure; and when `process` does not return an error, every read and write it
made succeeded. -/
theorem fail_fast {B E R : Type} (W : Workbook B E) (RE : Regexp R) (m : Cache R)
    (sheetName : String) (cfg : Config) (st : State B) :
    (∀ e, W.getRows st.book sheetName = .error e →
      process W RE m sheetName cfg st = (.error e, st)) ∧
    (∀ e st1, process W RE m sheetName cfg st = (.error e, st1) →
      (W.getRows st.book sheetName = .error e ∧ st1 = st) ∨
      (∃ pre ev, st1.trace = st.trace ++ (pre ++ [ev]) ∧
        callsOk W sheetName st.book pre ∧
        callFails W sheetName (replay W sheetName st.book pre) e ev ∧
        st1.book = replay W sheetName st.book pre)) ∧
    (∀ o st1, process W RE m sheetName cfg st = (o, st1) → (∀ e, o ≠ .error e) →
      ∃ evs, st1.trace = st.trace ++ evs ∧ callsOk W sheetName st.book evs ∧
        st1.book = replay W sheetName st.book evs) := by
  refine ⟨fun e he => by simp only [process, he], ?_⟩
  cases hrows : W.getRows st.book sheetName with
  | error e0 =>
    constructor
    · intro e st1 h
      simp only [process, hrows, Prod.mk.injEq, Outcome.error.injEq] at h
      exact Or.inl ⟨by rw [h.1], h.2.symm⟩
    · intro o st1 h hne
      simp only [process, hrows, Prod.mk.injEq] at h
      exact absurd h.1.symm (hne e0)
  | ok rows =>
    have ht := process_traced W RE m sheetName cfg st rows hrows
    constructor
    · intro e st1 h
      rw [h] at ht
      obtain ⟨evs, applied, h1, h2, ⟨pre, ev, hp, hok, hf⟩, -⟩ := ht
      refine Or.inr ⟨pre, ev, by rw [h1, hp], hok, hf, ?_⟩
      rw [h2, hp, replay_append]
      exact writeStep_of_fails W sheetName _ e ev hf
    · intro o st1 h hne
      rw [h] at ht
      obtain ⟨evs, applied, h1, h2, h3, -⟩ := ht
      refine ⟨evs, h1, ?_, h2⟩
      cases o with
      | ok u => exact h3
      | error e => exact absurd rfl (hne e)
      | panicked => exact h3

/-- Two failures: on `missingSheet` the row enumeration fails and `process`
returns that error with the state untouched; on `memWorkbook` the run of
`failingWrite` fails at the write to the address "12" at row 2, after the
write to B2, which stays written. -/
theorem fail_fast_witness :
    process missingSheet literalRegexp
        (validate literalRegexp (some failingWrite) Cache.empty).2 "Sheet1" failingWrite
        ⟨exampleBook, []⟩ =
      (.error "sheet Sheet1 does not exist", ⟨exampleBook, []⟩) ∧
    failingWriteRun.1 = .error "invalid cell name 12" ∧
    failingWriteRun.2.trace =
      [.setCell "B2" "ok", .info 2 "good" "B2 -> ok", .setCell "12" "no"] ∧
    failingWriteRun.2.book.cell (['B'], 2) = "ok" ∧
    ((memWorkbook.getRows exampleBook "Sheet1" = .error "invalid cell name 12" ∧
        failingWriteRun.2 = ⟨exampleBook, []⟩) ∨
      (∃ pre ev, failingWriteRun.2.trace = [] ++ (pre ++ [ev]) ∧
        callsOk memWorkbook "Sheet1" exampleBook pre ∧
        callFails memWorkbook "Sheet1" (replay memWorkbook "Sheet1" exampleBook pre)
          "invalid cell name 12" ev ∧
        failingWriteRun.2.book = replay memWorkbook "Sheet1" exampleBook pre)) :=
  ⟨(fail_fast missingSheet literalRegexp (validate literalRegexp (some failingWrite) Cache.empty).2
      "Sheet1" failingWrite ⟨exampleBook, []⟩).1 "sheet Sheet1 does not exist" (by decide),
    by decide, by decide, by decide,
    (fail_fast memWorkbook literalRegexp (validate literalRegexp (some failingWrite) Cache.empty).2
      "Sheet1" failingWrite ⟨exampleBook, []⟩).2.1 "invalid cell name 12" failingWriteRun.2
      (Prod.ext (by decide) rfl)⟩

/-- C15. Exactly one trace event per applied action: for every run of
`process` there is a list of applied actions, each an action of an operation
of the configuration at a data row, such that the successful writes of the
run are, in order, the writes of these actions, and the log lines of the run
are, in the same order, the lines of these actions, each carrying the row, the
operation name, the address and the value of its write; a write that fails is
not among the successful writes and has no line. -/
theorem one_event_per_write {B E R : Type} (W : Workbook B E) (RE : Regexp R) (m : Cache R)
    (sheetName : String) (cfg : Config) (st : State B) :
    ∃ (evs : List Event) (applied : List (Nat × Operation × Action)),
      (process W RE m sheetName cfg st).2.trace = st.trace ++ evs ∧
      okWrites W sheetName st.book evs = applied.map writeOfApplied ∧
      infosOf evs = applied.map infoOfApplied ∧
      ∀ x ∈ applied, x.2.1 ∈ cfg.operations ∧ x.2.2 ∈ x.2.1.actions ∧ 2 ≤ x.1 ∧
        ∀ rows, W.getRows st.book sheetName = .ok rows → x.1 ≤ rows.length := by
  cases hrows : W.getRows st.book sheetName with
  | error e0 =>
    refine ⟨[], [], by simp [process, hrows], rfl, rfl, by simp⟩
  | ok rows =>
    obtain ⟨evs, applied, h1, -, -, h4, h5, h6⟩ := process_traced W RE m sheetName cfg st rows hrows
    refine ⟨evs, applied, h1, h5, h6, ?_⟩
    intro x hx
    obtain ⟨hr, hop, hact⟩ := h4 x hx
    have := (mem_dataRows _ _).1 hr
    refine ⟨hop, hact, this.1, ?_⟩
    intro rs hrs
    cases hrs
    exact this.2

/-- The log lines of two runs evaluated: on `chained` every write succeeds and
has its line; on `failingWrite` the write that fails has no line. -/
theorem one_event_per_write_example :
    writesOf chainedRun.2.trace =
      [("B2", "x1"), ("C2", "hit"), ("B3", "x1"), ("C3", "hit")] ∧
    infosOf chainedRun.2.trace =
      [(2, "mark", "B2 -> x1"), (2, "follow", "C2 -> hit"), (3, "mark", "B3 -> x1"),
        (3, "follow", "C3 -> hit")] ∧
    writesOf failingWriteRun.2.trace = [("B2", "ok"), ("12", "no")] ∧
    okWrites memWorkbook "Sheet1" exampleBook failingWriteRun.2.trace = [("B2", "ok")] ∧
    infosOf failingWriteRun.2.trace = [(2, "good", "B2 -> ok")] := by
  decide

/-- C16, as stated, fails: `validate` accepts `lowerColumn`, whose only action
has the column "b"; the address "B2" is not that column followed by the
decimal text of a row, and the cell it denotes does not keep its value: the
write to "b2" at row 2 changes it from "old" to "yes". -/
theorem process_frame_counterexample :
    (validate literalRegexp (some lowerColumn) Cache.empty).1 = .ok () ∧
    lowerColumnRun.1 = .ok () ∧
    writesOf lowerColumnRun.2.trace = [("b2", "yes")] ∧
    ¬ WriteTarget lowerColumn (rowCount memWorkbook "Sheet1" exampleBook) "B2" ∧
    memWorkbook.getCellValue exampleBook "Sheet1" "B2" = .ok "old" ∧
    memWorkbook.getCellValue lowerColumnRun.2.book "Sheet1" "B2" = .ok "yes" := by
  refine ⟨by decide, by decide, by decide, ?_, by decide, by decide⟩
  rintro ⟨op, hop, x, hx, r, -, -, h⟩
  simp only [lowerColumn, List.mem_singleton] at hop
  subst hop
  simp only [List.mem_singleton] at hx
  subst hx
  have := congrArg String.data h
  simp [String.data_append] at this

/-- C16, amended. Frame of `process`: whatever the outcome, every write that
`process` makes is to an address of the form action column followed by the
decimal text of a row `r` with `2 ≤ r ≤ len(rows)`, and for a lawful workbook
every address that denotes no cell denoted by an address of that form reads
the same after `process` as before. -/
theorem process_frame {B E R : Type} (W : Workbook B E) (RE : Regexp R) (m : Cache R)
    (sheetName : String) (cfg : Config) (st : State B) :
    (∃ evs, (process W RE m sheetName cfg st).2.trace = st.trace ++ evs ∧
      ∀ w ∈ writesOf evs, WriteTarget cfg (rowCount W sheetName st.book) w.1) ∧
    (Lawful W sheetName → ∀ a,
      (∀ a1, WriteTarget cfg (rowCount W sheetName st.book) a1 → cellOf a1 ≠ cellOf a) →
      W.getCellValue (process W RE m sheetName cfg st).2.book sheetName a =
        W.getCellValue st.book sheetName a) := by
  obtain ⟨evs, h1, h2, h3, -⟩ := process_ran_rowCount W RE m sheetName cfg st
  have hw : ∀ a v, Event.setCell a v ∈ evs → WriteTarget cfg (rowCount W sheetName st.book) a :=
    fun a v hm => writeTarget_of_eventIn cfg _ a v (h2 _ hm)
  refine ⟨⟨evs, h1, fun w hwm => hw w.1 w.2 (mem_writesOf evs w hwm)⟩, ?_⟩
  intro hW a ha
  rw [h3]
  exact get_replay_other W sheetName hW evs st.book a
    (fun a1 v1 hm heq => ha a1 (hw a1 v1 hm) heq.symm)

/-- The frame on the end-to-end example: the cell C2, which no address "B"
followed by a row denotes, reads the same after `process`. -/
theorem process_frame_witness :
    memWorkbook.getCellValue exampleRun.2.book "Sheet1" "C2" =
      memWorkbook.getCellValue exampleBook "Sheet1" "C2" :=
  (process_frame memWorkbook literalRegexp
    (validate literalRegexp (some (singleRule "rule" "^x" "yes")) Cache.empty).2 "Sheet1"
    (singleRule "rule" "^x" "yes") ⟨exampleBook, []⟩).2 (memWorkbook_lawful "Sheet1") "C2"
    (by
      rintro a1 ⟨op, hop, x, hx, r, h2, -, rfl⟩
      simp only [singleRule, List.mem_singleton] at hop
      subst hop
      simp only [List.mem_singleton] at hx
      subst hx
      rw [cellOf_B r (by omega), show cellOf "C2" = some (['C'], 2) by decide]
      simp)

end ExcelFill
